import Mathlib

/-!
Verification development for the MX memory-analysis core.

The Rust sources under `src/app/src/main/rust/src` are shallowly embedded:
`u64` values are modelled as `Nat` (with explicit `% 2^64` / saturation where
the source saturates or wraps), `i64` values as `Int` with explicit wrapping,
fallible operations as `Except`/`Option`, and the kernel driver as explicit
read oracles.  Shared record types that live outside the provided source
files (`types.rs`, the bitmap and result-manager modules) are modelled from
the specification and carry a `Modelled from the spec:` note.
-/

namespace MX

/-- Two to the sixty-fourth, the `u64` modulus. -/
def U64MOD : Nat := 18446744073709551616

/-- Saturating `u64` addition (`u64::saturating_add`): the sum is clamped to
`u64::MAX`. -/
def satAdd64 (a b : Nat) : Nat := min (a + b) (U64MOD - 1)

/-- Reinterpretation of an integer as a signed 64-bit value (two's complement
wrap-around), used for Rust `as i64` casts and `i64::wrapping_sub`. -/
def wrapI64 (z : Int) : Int := (z + 2 ^ 63) % 2 ^ 64 - 2 ^ 63

/-- A pointer record: the address where a pointer-sized value was found and
the value stored there.  Modelled from the spec: `PointerData` is
`{address: u64, value: u64}` (the defining `types.rs` is not among the
provided sources; both fields are modelled as `Nat` standing for `u64`). -/
structure PointerData where
  address : Nat
  value : Nat
deriving DecidableEq, Repr

/-- Modelled from the spec: `VmStaticData` describes a static module
`{name, index, base, size}` with `contains(addr)` and
`offset_from_base(addr)` (its `types.rs` definition is not in the provided
sources). -/
structure VmStaticData where
  name : String
  index : Nat
  base : Nat
  size : Nat
deriving DecidableEq, Repr

/-- Modelled from the spec: a static module contains an address when the
address falls inside the half-open span `[base, base + size)`. -/
def VmStaticData.contains (m : VmStaticData) (addr : Nat) : Bool :=
  decide (m.base ≤ addr ∧ addr < m.base + m.size)

/-- Modelled from the spec: classification offset is `addr − module.base`. -/
def VmStaticData.offset_from_base (m : VmStaticData) (addr : Nat) : Nat :=
  addr - m.base

/-- Modelled from the spec: `PointerScanConfig` is
`{target_address, max_depth, max_offset, align, scan_static_only}`. -/
structure PointerScanConfig where
  target_address : Nat
  max_depth : Nat
  max_offset : Nat
  align : Nat
  scan_static_only : Bool
deriving DecidableEq, Repr

/-- Modelled from the spec: `PointerChainStep` is a tagged variant,
`StaticRoot{module_name, module_index, base_offset}` or
`DynamicOffset{offset}`. -/
inductive PointerChainStep where
  | staticRoot (module_name : String) (module_index : Nat) (base_offset : Int)
  | dynamicOffset (offset : Int)
deriving DecidableEq, Repr

/-- The optional module name of a chain step, as read by the final sort
comparator of `build_pointer_chains_layered_bfs` (`s.module_name`). -/
def PointerChainStep.moduleName? : PointerChainStep → Option String
  | .staticRoot n _ _ => some n
  | .dynamicOffset _ => none

/-- Modelled from the spec: `PointerChain` is `{target, steps}` with
`depth() = steps.len() - 1`. -/
structure PointerChain where
  target : Nat
  steps : List PointerChainStep
deriving DecidableEq, Repr

/-- Chain depth, `steps.len() - 1`. -/
def PointerChain.depth (c : PointerChain) : Nat := c.steps.length - 1

/-- The structural invariant of an emitted chain: the first step is a
`StaticRoot`, every later step is a `DynamicOffset`, and the depth is at
most the configured maximum. -/
def ChainShapeOK (maxDepth : Nat) (c : PointerChain) : Prop :=
  (∃ n i o, c.steps.head? = some (.staticRoot n i o)) ∧
  (∀ s ∈ c.steps.tail, ∃ o, s = .dynamicOffset o) ∧
  c.depth ≤ maxDepth

/-! ### Generic sorting helpers

Rust's `par_sort_by` / `par_sort_unstable_by` produce a sorted permutation of
their input; they are modelled by insertion sort with the corresponding
boolean `le` comparator (ties on the comparator may come out in any order,
which both the spec and the claims allow). -/

/-- Ordered insertion with respect to a boolean comparator. -/
def insLe {α : Type} (le : α → α → Bool) (x : α) : List α → List α
  | [] => [x]
  | y :: ys => if le x y then x :: y :: ys else y :: insLe le x ys

/-- Sorting with respect to a boolean comparator (model of Rust slice
sorts). -/
def sortLe {α : Type} (le : α → α → Bool) (l : List α) : List α :=
  l.foldr (insLe le) []

/-! ### Phase 2: chain builder (`pointer_scan/chain_builder.rs`)

The `MmapQueue<PointerData>` input is abstracted to its sequence of records
(a `List PointerData`): `queue.len()` is the list length and `queue.get(i)`
is `l[i]?`, with `value.to_native()` the identity on the model. -/

/-- One binary-search loop of `find_range_in_pointer_queue`: lower-bound
search for `bound` between `left` and `right`.  The `none` arm mirrors the
source's `break` when `queue.get(mid)` fails.  The `while left < right`
loop runs at most `right - left` times (the gap shrinks every iteration),
so it is embedded with that iteration count as structural fuel. -/
def lowerBoundGo (queue : List PointerData) (bound : Nat) :
    Nat → Nat → Nat → Nat
  | 0, left, _ => left
  | fuel + 1, left, right =>
    if left < right then
      match queue[left + (right - left) / 2]? with
      | some r =>
          if r.value < bound then
            lowerBoundGo queue bound fuel (left + (right - left) / 2 + 1) right
          else
            lowerBoundGo queue bound fuel left (left + (right - left) / 2)
      | none => left
    else left

/-- The lower-bound binary search between `left` and `right`. -/
def lowerBoundLoop (queue : List PointerData) (bound left right : Nat) : Nat :=
  lowerBoundGo queue bound (right - left) left right

/-- Binary search for the index range of values in `[min_value, max_value)`
(`find_range_in_pointer_queue`). -/
def find_range_in_pointer_queue (queue : List PointerData)
    (min_value max_value : Nat) : Nat × Nat :=
  let count := queue.length
  if count = 0 then (0, 0)
  else
    let start_idx := lowerBoundLoop queue min_value 0 count
    (start_idx, lowerBoundLoop queue max_value start_idx count)

/-- All pointers whose value lies in `[target - max_offset,
target + max_offset]` with the signed offset `target - value`
(`find_pointers_to_range`; subtraction saturates like `u64` arithmetic and
the offset is the `i64` wrapping difference). -/
def find_pointers_to_range (pointer_lib : List PointerData)
    (target : Nat) (max_offset : Nat) : List (Nat × Int) :=
  let min_value := target - max_offset
  let max_value := satAdd64 target (max_offset + 1)
  let r := find_range_in_pointer_queue pointer_lib min_value max_value
  (List.range' r.1 (r.2 - r.1)).filterMap fun i =>
    (pointer_lib[i]?).map fun rec =>
      (rec.address, wrapI64 ((target : Int) - (rec.value : Int)))

/-- First static module containing the address, with its classification data
(`classify_pointer`). -/
def classify_pointer (address : Nat) (static_modules : List VmStaticData) :
    Option (String × Nat × Nat) :=
  static_modules.findSome? fun m =>
    if m.contains address then some (m.name, m.index, m.offset_from_base address)
    else none

/-- BFS path node: the address currently searched for and the offset history
from the target (`PathNode`). -/
structure PathNode where
  current_target : Nat
  offset_history : List Int
deriving DecidableEq, Repr

/-- Child node: clone the history and append the offset (`PathNode::child`). -/
def PathNode.child (n : PathNode) (ptr_address : Nat) (offset : Int) : PathNode :=
  ⟨ptr_address, n.offset_history ++ [offset]⟩

/-- A candidate pointer discovered in the scatter phase (`Candidate`). -/
structure Candidate where
  ptr_address : Nat
  offset : Int
  parent_idx : Nat
deriving DecidableEq, Repr

/-- Per-layer candidate cap (`MAX_CANDIDATES_PER_LAYER`). -/
def MAX_CANDIDATES_PER_LAYER : Nat := 30000000

/-- Scatter phase: for every node of the current layer, every pointer into
its target range becomes a candidate tagged with the parent index (the
`par_iter().enumerate().flat_map(...)` collect, which preserves order; the
inner `cancelled` fast-path never fires in a run where cancellation is only
observed at the head of the depth loop). -/
def scatterLayer (pointer_lib : List PointerData) (max_offset : Nat)
    (layer : List PathNode) : List Candidate :=
  layer.enum.flatMap fun p =>
    (find_pointers_to_range pointer_lib p.2.current_target max_offset).map
      fun q => ⟨q.1, q.2, p.1⟩

/-- Classify-and-emit phase over the candidate list: emits finished chains
for candidates classified into a static module and collects the next BFS
layer (`expand` is the source's `depth + 1 < config.max_depth`). -/
def processCandidates (target : Nat) (static_modules : List VmStaticData)
    (expand : Bool) (scan_static_only : Bool) (layer : List PathNode) :
    List Candidate → List PointerChain × List PathNode
  | [] => ([], [])
  | c :: rest =>
    if c.ptr_address = target then
      processCandidates target static_modules expand scan_static_only layer rest
    else
      let parent := layer.getD c.parent_idx ⟨0, []⟩
      let emitted : List PointerChain :=
        match classify_pointer c.ptr_address static_modules with
        | some cls =>
            [⟨target,
              .staticRoot cls.1 cls.2.1 (wrapI64 (cls.2.2 : Int)) ::
                ((if c.offset ≠ 0 then [.dynamicOffset c.offset] else []) ++
                  (parent.offset_history.reverse.map .dynamicOffset))⟩]
        | none => []
      let pushed : List PathNode :=
        if expand ∧
            (¬ scan_static_only ∨
              (classify_pointer c.ptr_address static_modules).isNone) then
          [parent.child c.ptr_address c.offset]
        else []
      let r := processCandidates target static_modules expand scan_static_only layer rest
      (emitted ++ r.1, pushed ++ r.2)

/-- The comparator of the final `par_sort_by`: depth ascending, then the
first step's optional module name (`Option` ordering: `none` first). -/
def chainLe (a b : PointerChain) : Bool :=
  if a.depth = b.depth then
    match (a.steps.head?.bind PointerChainStep.moduleName?),
        (b.steps.head?.bind PointerChainStep.moduleName?) with
    | none, _ => true
    | some _, none => false
    | some x, some y => decide ¬ (y < x)
  else decide (a.depth < b.depth)

/-- The layered BFS depth loop (`for depth in 0..config.max_depth`), carrying
the current layer and the emitted chains.  `check_cancelled` is modelled as a
pure predicate on the depth at which the check runs; the remaining number of
depth iterations (`config.max_depth - depth`) is the structural fuel, so the
loop exits exactly when `depth` reaches `config.max_depth`. -/
def bfsGo (pointer_lib : List PointerData) (static_modules : List VmStaticData)
    (config : PointerScanConfig) (check_cancelled : Nat → Bool) :
    Nat → Nat → List PathNode → List PointerChain → List PointerChain
  | 0, _, _, results => results
  | fuel + 1, depth, layer, results =>
    if check_cancelled depth then results
    else if layer.isEmpty then results
    else
      let cands := scatterLayer pointer_lib config.max_offset layer
      let r := processCandidates config.target_address static_modules
        (decide (depth + 1 < config.max_depth)) config.scan_static_only layer cands
      let next :=
        if r.2.length > MAX_CANDIDATES_PER_LAYER then r.2.take MAX_CANDIDATES_PER_LAYER
        else r.2
      bfsGo pointer_lib static_modules config check_cancelled fuel (depth + 1) next
        (results ++ r.1)

/-- Layered-BFS chain construction (`build_pointer_chains_layered_bfs`):
run the depth loop from the target address, then sort by depth and root
module name.  The function always returns `Ok`. -/
def build_pointer_chains_layered_bfs (pointer_lib : List PointerData)
    (static_modules : List VmStaticData) (config : PointerScanConfig)
    (check_cancelled : Nat → Bool) : Except String (List PointerChain) :=
  .ok (sortLe chainLe
    (bfsGo pointer_lib static_modules config check_cancelled config.max_depth 0
      [⟨config.target_address, []⟩] []))

/-- Public entry point (`build_pointer_chains`), which delegates to the
layered BFS. -/
def build_pointer_chains (pointer_lib : List PointerData)
    (static_modules : List VmStaticData) (config : PointerScanConfig)
    (check_cancelled : Nat → Bool) : Except String (List PointerChain) :=
  build_pointer_chains_layered_bfs pointer_lib static_modules config check_cancelled

/-! ### Phase 1: pointer scanner (`pointer_scan/scanner.rs`)

Driver reads are modelled by three oracles: the byte content of the target
address space (`mem`), per-page read success (`pageOk`, indexed by absolute
page number), and per-chunk hard read failure (`readFail`, indexed by the
chunk's base address).  `PAGE_SIZE` is the `page_size` parameter. -/

/-- A memory region to scan (`ScanRegion`; the source field `end` is a Lean
keyword and is called `stop` here). -/
structure ScanRegion where
  start : Nat
  stop : Nat
  name : String
deriving DecidableEq, Repr

/-- Modelled from the spec: `PageStatusBitmap` holds one success bit per
page of a read buffer (`num_pages`, `is_page_success(i)`); its defining
module (`wuwa`) is not among the provided sources. -/
structure PageStatusBitmap where
  num_pages : Nat
  ok : Nat → Bool

/-- Little-endian `u64` read of eight bytes of a buffer at an offset
(`u64::from_le_bytes`); missing bytes read as 0, but every use stays in
bounds. -/
def readLE64 (buf : List Nat) (offset : Nat) : Nat :=
  (List.range 8).foldr (fun i acc => acc * 256 + buf.getD (offset + i) 0) 0

/-- Pointer validity check (`is_valid_pointer`): mask to the 48-bit
addressable space (`% 2^48` equals the source's `& 0x0000_FFFF_FFFF_FFFF`),
quick min/max rejection, then containment in one of the merged ranges.  The
std `slice::binary_search_by` over the merged, sorted, disjoint intervals is
modelled by its contract — it succeeds exactly when a containing interval
exists — as a linear containment check. -/
def is_valid_pointer (value : Nat) (valid_ranges : List (Nat × Nat)) : Bool :=
  let masked := value % 2 ^ 48
  if valid_ranges.isEmpty then false
  else
    let min_addr := ((valid_ranges.head?).map Prod.fst).getD 0
    let max_addr := ((valid_ranges.getLast?).map Prod.snd).getD 0
    if masked < min_addr ∨ max_addr ≤ masked then false
    else valid_ranges.any fun r => decide (r.1 ≤ masked ∧ masked < r.2)

/-- Scan one read chunk for valid pointers (`scan_chunk_for_pointers`):
for every successfully-read page, read the little-endian `u64` at every
`align`-stepped offset whose eight bytes fit in the page slice.  (The source
`step_by(align)` panics on `align = 0`; all uses have `align ≥ 1`.) -/
def scan_chunk_for_pointers (buffer : List Nat) (base_addr : Nat) (align : Nat)
    (valid_ranges : List (Nat × Nat)) (page_bitmap : PageStatusBitmap)
    (page_size : Nat) : List PointerData :=
  if buffer.length < 8 then []
  else
    (List.range page_bitmap.num_pages).flatMap fun page_idx =>
      if ¬ page_bitmap.ok page_idx then []
      else
        let page_start_idx := page_idx * page_size
        let page_end_idx := min (page_start_idx + page_size) buffer.length
        if page_end_idx ≤ page_start_idx then []
        else
          let page_slice := (buffer.drop page_start_idx).take (page_end_idx - page_start_idx)
          if page_slice.length < 8 then []
          else
            let scan_limit := page_slice.length - 8
            (List.range (scan_limit / align + 1)).filterMap fun k =>
              let offset := k * align
              let value := readLE64 page_slice offset
              if is_valid_pointer value valid_ranges then
                some ⟨base_addr + page_start_idx + offset, value⟩
              else none

/-- The chunk loop of `scan_region_for_pointers`: step through the region by
`chunk_size`, reading each chunk through the driver; hard read failures skip
the chunk.  (The source loops forever on `chunk_size = 0`; the only call
site passes the fixed 512 KiB chunk, so the guard also requires
`0 < chunk_size`.)  The source's per-chunk check of the shared `cancelled`
flag never fires in a run that was not cancelled at region level. -/
def scanRegionGo (stop chunk_size : Nat) (valid_ranges : List (Nat × Nat))
    (align : Nat) (mem : Nat → Nat) (pageOk : Nat → Bool) (readFail : Nat → Bool)
    (page_size : Nat) : Nat → Nat → List PointerData
  | 0, _ => []
  | fuel + 1, cur =>
    if 0 < chunk_size ∧ cur < stop then
      let read_size := min chunk_size (stop - cur)
      let buffer := (List.range read_size).map fun i => mem (cur + i)
      let bitmap : PageStatusBitmap :=
        ⟨(read_size + page_size - 1) / page_size, fun i => pageOk (cur / page_size + i)⟩
      let found :=
        if readFail cur then []
        else scan_chunk_for_pointers buffer cur align valid_ranges bitmap page_size
      found ++ scanRegionGo stop chunk_size valid_ranges align mem pageOk readFail
        page_size fuel (cur + read_size)
    else []

/-- Scan a region for pointers (`scan_region_for_pointers`; the alignment
assertions of the source become hypotheses of the theorems that use this).
The chunk loop advances by at least one byte per iteration, so `stop -
start` iterations of fuel always suffice. -/
def scan_region_for_pointers (region : ScanRegion) (chunk_size : Nat)
    (valid_ranges : List (Nat × Nat)) (align : Nat) (mem : Nat → Nat)
    (pageOk : Nat → Bool) (readFail : Nat → Bool) (page_size : Nat) :
    List PointerData :=
  scanRegionGo region.stop chunk_size valid_ranges align mem pageOk readFail
    page_size (region.stop - region.start) region.start

/-- The overlap/adjacency merging fold of `scan_all_pointers` over the sorted
range list. -/
def mergeRangesGo (current : Nat × Nat) : List (Nat × Nat) → List (Nat × Nat)
  | [] => [current]
  | next :: rest =>
    if next.1 ≤ current.2 then mergeRangesGo (current.1, max current.2 next.2) rest
    else current :: mergeRangesGo next rest

/-- Build the merged, sorted valid ranges from the input regions
(`scan_all_pointers`, lines 241–256: sort by start, merge
overlapping/adjacent intervals). -/
def buildValidRanges (regions : List ScanRegion) : List (Nat × Nat) :=
  match sortLe (fun a b => decide (a.1 ≤ b.1))
      (regions.map fun r => (r.start, r.stop)) with
  | [] => []
  | c :: rest => mergeRangesGo c rest

/-- `PointerData` comparison by value, the sort key of the temp-file sort. -/
def pdValueLe (a b : PointerData) : Bool := decide (a.value ≤ b.value)

/-- Sorting of one flushed batch (`sort_and_write_temp_file`; the file
contents are the sorted records). -/
def sort_and_write_temp_file (buffer : List PointerData) : List PointerData :=
  sortLe pdValueLe buffer

/-- Two-way merge by `a.value < b.value`, the comparator of the source's
`kmerge_by` (structural fuel: one element is consumed per step, so the sum
of lengths suffices). -/
def kmerge2Go : Nat → List PointerData → List PointerData → List PointerData
  | 0, xs, ys => xs ++ ys
  | fuel + 1, xs, ys =>
    match xs, ys with
    | [], ys => ys
    | x :: xs, [] => x :: xs
    | x :: xs, y :: ys =>
      if x.value < y.value then x :: kmerge2Go fuel xs (y :: ys)
      else y :: kmerge2Go fuel (x :: xs) ys

/-- Two-way merge by value. -/
def kmerge2 (xs ys : List PointerData) : List PointerData :=
  kmerge2Go (xs.length + ys.length) xs ys

/-- K-way merge of the temp files (`merge_temp_files_kway`; itertools'
heap-based `kmerge_by` is modelled as iterated two-way merge, which agrees
up to the order of ties on `value`; the batched `push_batch` into the output
`MmapQueue` is abstracted to the merged record sequence). -/
def merge_temp_files_kway (files : List (List PointerData)) : List PointerData :=
  files.foldr kmerge2 []

/-- Writer-side batch threshold (`BATCH_SIZE_THRESHOLD`). -/
def BATCH_SIZE_THRESHOLD : Nat := 10000000

/-- Read chunk size (`CHUNK_SIZE = 512 KiB`). -/
def CHUNK_SIZE : Nat := 524288

/-- The consumer thread's batching of incoming record messages: append each
message to the buffer and flush a temp file whenever the buffer reaches the
threshold, flushing any remainder at end-of-stream. -/
def writerBatchesGo (buffer : List PointerData) :
    List (List PointerData) → List (List PointerData)
  | [] => if buffer.isEmpty then [] else [buffer]
  | chunk :: rest =>
    let b := buffer ++ chunk
    if BATCH_SIZE_THRESHOLD ≤ b.length then b :: writerBatchesGo [] rest
    else writerBatchesGo b rest

/-- Batches flushed by the writer thread for a given message sequence. -/
def writerBatches (msgs : List (List PointerData)) : List (List PointerData) :=
  writerBatchesGo [] msgs

/-- Phase 1 driver (`scan_all_pointers`): build the merged ranges, scan every
region, externally sort, k-way merge.  The parallel producer/consumer
pipeline is modelled by its sequential refinement: regions are scanned and
their messages arrive in input order (any arrival order yields a permutation
with the same sorted merge); the per-region cancellation check of the
`par_iter().try_for_each` aborts the whole call with the source's
`Scan cancelled` error. -/
def scan_all_pointers (regions : List ScanRegion) (config : PointerScanConfig)
    (mem : Nat → Nat) (pageOk : Nat → Bool) (readFail : Nat → Bool)
    (page_size : Nat) (check_cancelled : Nat → Bool) :
    Except String (List PointerData) :=
  let valid_ranges := buildValidRanges regions
  if (List.range regions.length).any check_cancelled then .error "Scan cancelled"
  else
    let msgs := regions.map fun r =>
      scan_region_for_pointers r CHUNK_SIZE valid_ranges config.align mem pageOk
        readFail page_size
    .ok (merge_temp_files_kway ((writerBatches msgs).map sort_and_write_temp_file))

/-! ### Storage: `MmapQueue` (`pointer_scan/storage.rs`)

The mapping is modelled as a total byte store `Nat → Nat`; file paths,
`msync` and unlink-on-drop are not observable through `push`/`get`/`len`
and are omitted.  The queue is instantiated, as in the pipeline, at
`PointerData`, whose rkyv archived form is the spec's 16-byte little-endian
`{address, value}` layout. -/

/-- Record alignment inside the backing file (`ALIGNMENT`). -/
def ALIGNMENT : Nat := 16

/-- Initial backing-file size (`INITIAL_SIZE`, 128 MiB). -/
def INITIAL_SIZE : Nat := 134217728

/-- Growth increment (`GROW_SIZE`, 64 MiB). -/
def GROW_SIZE : Nat := 67108864

/-- Little-endian encoding of a value into `n` bytes. -/
def leBytes : Nat → Nat → List Nat
  | 0, _ => []
  | n + 1, v => v % 256 :: leBytes n (v / 256)

/-- Little-endian decoding of a byte list. -/
def leNat : List Nat → Nat
  | [] => 0
  | b :: bs => b % 256 + 256 * leNat bs

/-- rkyv serialisation of a `PointerData` record (`to_bytes`): the archived
form is the two fields as little-endian `u64`s (spec: 16 bytes,
little-endian, naturally aligned). -/
def serializePointerData (r : PointerData) : List Nat :=
  leBytes 8 r.address ++ leBytes 8 r.value

/-- Overwrite `bs.length` bytes of a byte store starting at `start`. -/
def writeBytesFun (f : Nat → Nat) (start : Nat) (bs : List Nat) : Nat → Nat :=
  fun i => if start ≤ i ∧ i < start + bs.length then bs.getD (i - start) 0 else f i

/-- Read `len` bytes of a byte store starting at `start`. -/
def readBytesFun (f : Nat → Nat) (start len : Nat) : List Nat :=
  (List.range len).map fun i => f (start + i)

/-- The memory-mapped queue state (`MmapQueue<PointerData>`): capacity and
write offset in bytes, the per-record index vector `(offset, length)`, and
the mapped bytes. -/
structure MmapQueue where
  capacity : Nat
  count : Nat
  write_offset : Nat
  indices : List (Nat × Nat)
  data : Nat → Nat

/-- The grow loop of `push` (`while write_offset + required_space >
capacity { grow_old() }`): each `grow_old` drops the mapping, extends the
file by `GROW_SIZE` and remaps; growth is modelled as always succeeding.
Each iteration adds 64 MiB, so `threshold - capacity` iterations of fuel
always suffice. -/
def growGo : Nat → Nat → Nat → Nat
  | 0, capacity, _ => capacity
  | fuel + 1, capacity, threshold =>
    if capacity < threshold then growGo fuel (capacity + GROW_SIZE) threshold
    else capacity

/-- Grown capacity after the `push` grow loop. -/
def growCapacity (capacity threshold : Nat) : Nat :=
  growGo (threshold - capacity) capacity threshold

/-- Create a fresh queue (`MmapQueue::new`): truncated backing file of 128
MiB (zero-filled), empty index. -/
def MmapQueue.new : MmapQueue :=
  ⟨INITIAL_SIZE, 0, 0, [], fun _ => 0⟩

/-- Append one record (`MmapQueue::push`): serialise, pad the write offset
to 16 bytes, grow as needed, copy the bytes, record the index entry. -/
def MmapQueue.push (q : MmapQueue) (item : PointerData) : MmapQueue :=
  let bytes := serializePointerData item
  let size := bytes.length
  let padding := (ALIGNMENT - q.write_offset % ALIGNMENT) % ALIGNMENT
  let required_space := size + padding
  let capacity := growCapacity q.capacity (q.write_offset + required_space)
  let data_offset := q.write_offset + padding
  { capacity := capacity
    count := q.count + 1
    write_offset := q.write_offset + required_space
    indices := q.indices ++ [(data_offset, size)]
    data := writeBytesFun q.data data_offset bytes }

/-- Append many records (`MmapQueue::push_batch`, repeated `push`). -/
def MmapQueue.push_batch (q : MmapQueue) (items : List PointerData) : MmapQueue :=
  items.foldl MmapQueue.push q

/-- Random access (`MmapQueue::get`): index lookup, then the zero-copy
`access_unchecked` typed view of the stored bytes, modelled by decoding the
record's two little-endian `u64` fields. -/
def MmapQueue.get (q : MmapQueue) (index : Nat) : Option PointerData :=
  (q.indices[index]?).map fun e =>
    ⟨leNat (readBytesFun q.data e.1 8), leNat (readBytesFun q.data (e.1 + 8) 8)⟩

/-- Number of stored items (`MmapQueue::len`). -/
def MmapQueue.len (q : MmapQueue) : Nat := q.count

/-! ### Fuzzy search (`search/engine/fuzzy_search.rs`)

The result-manager and shared search types (`FuzzySearchResultItem`,
`ValueType`, `FuzzyCondition`, `matches_condition`, `BPlusTreeSet`) are not
among the provided sources and are modelled from the spec. -/

/-- Modelled from the spec: `ValueType` enumerates the ten scalar types. -/
inductive ValueType where
  | i8 | u8 | i16 | u16 | i32 | u32 | i64 | u64 | f32 | f64
deriving DecidableEq, Repr

/-- Modelled from the spec: each value type has a fixed byte size. -/
def ValueType.size : ValueType → Nat
  | .i8 | .u8 => 1
  | .i16 | .u16 => 2
  | .i32 | .u32 | .f32 => 4
  | .i64 | .u64 | .f64 => 8

/-- An IEEE-754 value as compared numerically: not-a-number, the two
infinities, or a finite rational. -/
inductive FVal where
  | nan
  | negInf
  | posInf
  | fin (q : ℚ)
deriving DecidableEq

/-- Decode an IEEE-754 bit pattern (given exponent width, mantissa width and
bias) into its numeric value. -/
def decodeIEEE (expBits mantBits bias n : Nat) : FVal :=
  let sign := n / 2 ^ (expBits + mantBits) % 2
  let e := n / 2 ^ mantBits % 2 ^ expBits
  let m := n % 2 ^ mantBits
  if e = 2 ^ expBits - 1 then
    if m = 0 then (if sign = 1 then .negInf else .posInf) else .nan
  else
    let mant : ℚ := if e = 0 then (m : ℚ) else ((2 ^ mantBits + m : Nat) : ℚ)
    let ex : Int := (if e = 0 then 1 else (e : Int)) - bias - mantBits
    let mag : ℚ := mant * (2 : ℚ) ^ ex
    .fin (if sign = 1 then -mag else mag)

/-- IEEE equality: NaN equals nothing, `−0 = +0` (both decode to `fin 0`). -/
def FVal.feq : FVal → FVal → Bool
  | .fin a, .fin b => decide (a = b)
  | .negInf, .negInf => true
  | .posInf, .posInf => true
  | _, _ => false

/-- IEEE strict order: NaN is unordered. -/
def FVal.flt : FVal → FVal → Bool
  | .fin a, .fin b => decide (a < b)
  | .negInf, .fin _ => true
  | .negInf, .posInf => true
  | .fin _, .posInf => true
  | _, _ => false

/-- IEEE subtraction on the numeric values (exact; the spec states the
conditions as numeric equations, so rounding of the difference is not
modelled).  `∞ − ∞` and NaN operands give NaN. -/
def FVal.fsub : FVal → FVal → FVal
  | .fin a, .fin b => .fin (a - b)
  | .posInf, .fin _ => .posInf
  | .posInf, .negInf => .posInf
  | .negInf, .fin _ => .negInf
  | .negInf, .posInf => .negInf
  | .fin _, .posInf => .negInf
  | .fin _, .negInf => .posInf
  | _, _ => .nan

/-- A decoded scalar: an integer or a floating-point value. -/
inductive ScalarVal where
  | int (z : Int)
  | fl (v : FVal)
deriving DecidableEq

/-- Two's-complement reinterpretation of `n` low bits as a signed value. -/
def toSigned (bits n : Nat) : Int :=
  if n < 2 ^ (bits - 1) then (n : Int) else (n : Int) - 2 ^ bits

/-- Modelled from the spec: interpret a little-endian byte buffer under a
value type (the first `size` bytes are the value). -/
def decodeScalar (vt : ValueType) (bytes : List Nat) : ScalarVal :=
  let n := leNat (bytes.take vt.size)
  match vt with
  | .u8 | .u16 | .u32 | .u64 => .int (n : Int)
  | .i8 => .int (toSigned 8 n)
  | .i16 => .int (toSigned 16 n)
  | .i32 => .int (toSigned 32 n)
  | .i64 => .int (toSigned 64 n)
  | .f32 => .fl (decodeIEEE 8 23 127 n)
  | .f64 => .fl (decodeIEEE 11 52 1023 n)

/-- Scalar equality under the type interpretation. -/
def ScalarVal.seq : ScalarVal → ScalarVal → Bool
  | .int a, .int b => decide (a = b)
  | .fl a, .fl b => a.feq b
  | _, _ => false

/-- Scalar strict order under the type interpretation. -/
def ScalarVal.slt : ScalarVal → ScalarVal → Bool
  | .int a, .int b => decide (a < b)
  | .fl a, .fl b => a.flt b
  | _, _ => false

/-- Scalar non-strict order (`InRange` is inclusive). -/
def ScalarVal.sle (a b : ScalarVal) : Bool := a.slt b || a.seq b

/-- Scalar subtraction (for `IncreasedBy`/`DecreasedBy`). -/
def ScalarVal.ssub : ScalarVal → ScalarVal → ScalarVal
  | .int a, .int b => .int (a - b)
  | .fl a, .fl b => .fl (a.fsub b)
  | _, _ => .int 0

/-- Modelled from the spec: `FuzzyCondition`; value parameters are carried
as byte buffers interpreted under the item's value type. -/
inductive FuzzyCondition where
  | unchanged
  | changed
  | increased
  | decreased
  | increasedBy (n : List Nat)
  | decreasedBy (n : List Nat)
  | equal (v : List Nat)
  | greaterThan (v : List Nat)
  | lessThan (v : List Nat)
  | inRange (lo hi : List Nat)
deriving DecidableEq, Repr

/-- Modelled from the spec: `FuzzySearchResultItem` is
`{address, value_type, value_bytes}`, ordered by address ascending. -/
structure FuzzySearchResultItem where
  address : Nat
  value_type : ValueType
  value_bytes : List Nat
deriving DecidableEq, Repr

/-- Construct an item from a value slice (`FuzzySearchResultItem::from_bytes`). -/
def FuzzySearchResultItem.from_bytes (address : Nat) (bytes : List Nat)
    (vt : ValueType) : FuzzySearchResultItem :=
  ⟨address, vt, bytes⟩

/-- Modelled from the spec: `matches_condition(new_bytes, cond)` interprets
the old and new bytes under the item's value type and applies the condition
table of §4.4.2. -/
def FuzzySearchResultItem.matches_condition (old : FuzzySearchResultItem)
    (new_bytes : List Nat) (cond : FuzzyCondition) : Bool :=
  let vt := old.value_type
  let o := decodeScalar vt old.value_bytes
  let n := decodeScalar vt new_bytes
  match cond with
  | .unchanged => o.seq n
  | .changed => ! o.seq n
  | .increased => o.slt n
  | .decreased => n.slt o
  | .increasedBy d => (n.ssub o).seq (decodeScalar vt d)
  | .decreasedBy d => (o.ssub n).seq (decodeScalar vt d)
  | .equal v => n.seq (decodeScalar vt v)
  | .greaterThan v => (decodeScalar vt v).slt n
  | .lessThan v => n.slt (decodeScalar vt v)
  | .inRange lo hi => (decodeScalar vt lo).sle n && n.sle (decodeScalar vt hi)

/-- Modelled from the spec: insertion into the address-ordered
`BPlusTreeSet` (an already-present key keeps the existing element). -/
def setInsertItem : List FuzzySearchResultItem → FuzzySearchResultItem →
    List FuzzySearchResultItem
  | [], x => [x]
  | y :: ys, x =>
    if x.address < y.address then x :: y :: ys
    else if x.address = y.address then y :: ys
    else y :: setInsertItem ys x

/-- Insert a list of items into an empty ordered set. -/
def listToSet (l : List FuzzySearchResultItem) : List FuzzySearchResultItem :=
  l.foldl setInsertItem []

/-- Scan one successfully-read page for element-aligned values
(`scan_single_page`). -/
def scan_single_page (buffer : List Nat) (buffer_addr search_start search_end
    element_size : Nat) (vt : ValueType) (page_size page_idx : Nat) :
    List FuzzySearchResultItem :=
  let page_start_addr := buffer_addr + page_idx * page_size
  let page_end_addr := page_start_addr + page_size
  let effective_start := max page_start_addr search_start
  let effective_end := min page_end_addr search_end
  if effective_end ≤ effective_start then []
  else
    let rem := effective_start % element_size
    let first_addr :=
      if rem = 0 then effective_start else effective_start + element_size - rem
    if effective_end ≤ first_addr then []
    else
      let start_offset := first_addr - buffer_addr
      let end_offset := effective_end - buffer_addr
      let safe_end := min end_offset buffer.length
      let steps := (safe_end - start_offset) / element_size
      (List.range steps).map fun k =>
        FuzzySearchResultItem.from_bytes (first_addr + k * element_size)
          ((buffer.drop (start_offset + k * element_size)).take element_size) vt

/-- Scan a read chunk page-by-page (`scan_buffer_parallel`; the rayon
per-page parallel `flat_map` preserves order). -/
def scan_buffer_parallel (buffer : List Nat) (buffer_addr region_start
    region_end element_size : Nat) (vt : ValueType) (page_size : Nat)
    (page_status : PageStatusBitmap) : List FuzzySearchResultItem :=
  let buffer_end := buffer_addr + buffer.length
  let search_start := max buffer_addr region_start
  let search_end := min buffer_end region_end
  if search_end ≤ search_start then []
  else
    ((List.range page_status.num_pages).filter fun i => page_status.ok i).flatMap
      fun page_idx =>
        scan_single_page buffer buffer_addr search_start search_end element_size
          vt page_size page_idx

/-- The per-chunk result of the fuzzy initial scan at chunk index `i` (the
body of the chunk loop, with the chunk base `a0 + i · chunk_size` for the
page-rounded start `a0`). -/
def fuzzyChunkItems (vt : ValueType) (start stop chunk_size : Nat)
    (mem : Nat → Nat) (pageOk : Nat → Bool) (readFail : Nat → Bool)
    (page_size : Nat) (i : Nat) : List FuzzySearchResultItem :=
  let cur := (start - start % page_size) + i * chunk_size
  let chunk_end := min (cur + chunk_size) stop
  let chunk_len := chunk_end - cur
  let bitmap : PageStatusBitmap :=
    ⟨(chunk_len + page_size - 1) / page_size, fun j => pageOk (cur / page_size + j)⟩
  let buffer := (List.range chunk_len).map fun j => mem (cur + j)
  if readFail cur then []
  else scan_buffer_parallel buffer cur start stop vt.size vt page_size bitmap

/-- The chunk loop of `fuzzy_initial_scan`: check cancellation per chunk
(returning the accumulated set), read the chunk, scan its successful pages
and insert the results into the ordered set.  `k` counts the chunks, which
indexes the cancellation predicate.  (As in the scanner, a zero chunk size
loops forever in the source and is excluded by the guard.) -/
def fuzzyInitialGo (vt : ValueType) (start stop chunk_size : Nat)
    (mem : Nat → Nat) (pageOk : Nat → Bool) (readFail : Nat → Bool)
    (page_size : Nat) (check_cancelled : Nat → Bool) :
    Nat → Nat → Nat → List FuzzySearchResultItem → List FuzzySearchResultItem
  | 0, _, _, results => results
  | fuel + 1, k, cur, results =>
    if 0 < chunk_size ∧ cur < stop then
      if check_cancelled k then results
      else
        let chunk_end := min (cur + chunk_size) stop
        let chunk_len := chunk_end - cur
        let bitmap : PageStatusBitmap :=
          ⟨(chunk_len + page_size - 1) / page_size, fun j => pageOk (cur / page_size + j)⟩
        let buffer := (List.range chunk_len).map fun j => mem (cur + j)
        let found :=
          if readFail cur then []
          else scan_buffer_parallel buffer cur start stop vt.size vt page_size bitmap
        fuzzyInitialGo vt start stop chunk_size mem pageOk readFail page_size
          check_cancelled fuel (k + 1) chunk_end (found.foldl setInsertItem results)
    else results

/-- Fuzzy initial scan (`fuzzy_initial_scan`): page-align the start, walk
the range chunk by chunk, return the ordered set of all read values.  A
cancelled call returns `Ok` with the set accumulated so far.  The chunk loop
advances by at least one byte per iteration, so `stop` iterations of fuel
always suffice from any aligned start. -/
def fuzzy_initial_scan (vt : ValueType) (start stop chunk_size : Nat)
    (mem : Nat → Nat) (pageOk : Nat → Bool) (readFail : Nat → Bool)
    (page_size : Nat) (check_cancelled : Nat → Bool) :
    Except String (List FuzzySearchResultItem) :=
  .ok (fuzzyInitialGo vt start stop chunk_size mem pageOk readFail page_size
    check_cancelled (stop - (start - start % page_size)) 0
    (start - start % page_size) [])

/-- The sequential re-read phase of `fuzzy_refine_search`: walk the items in
order; at every hundredth index consult the cancellation predicate (a firing
check breaks to the matching phase with the pairs collected so far); a
failed re-read drops the item.  `readVal addr size` is the driver re-read
oracle. -/
def refineCollectLoop (readVal : Nat → Nat → Option (List Nat))
    (check_cancelled : Nat → Bool) :
    Nat → List FuzzySearchResultItem →
    List (FuzzySearchResultItem × List Nat)
  | _, [] => []
  | idx, it :: rest =>
    if idx % 100 = 0 ∧ check_cancelled idx then []
    else
      match readVal it.address it.value_type.size with
      | some buf => (it, buf) :: refineCollectLoop readVal check_cancelled (idx + 1) rest
      | none => refineCollectLoop readVal check_cancelled (idx + 1) rest

/-- Fuzzy refinement (`fuzzy_refine_search`): re-read every item, filter the
pairs by `matches_condition`, and build the new ordered set from the
matches carried with their new bytes.  The parallel matching phase's
`take_any_while` cancellation guard is modelled for runs in which the
predicate stays false (it is then the identity). -/
def fuzzy_refine_search (readVal : Nat → Nat → Option (List Nat))
    (items : List FuzzySearchResultItem) (condition : FuzzyCondition)
    (check_cancelled : Nat → Bool) :
    Except String (List FuzzySearchResultItem) :=
  if items.isEmpty then .ok []
  else
    let collected := refineCollectLoop readVal check_cancelled 0 items
    let matched := collected.filterMap fun p =>
      if p.1.matches_condition p.2 condition then
        some (FuzzySearchResultItem.from_bytes p.1.address p.2 p.1.value_type)
      else none
    .ok (listToSet matched)

/-! ### JNI driver interface (`jni_interface/driver.rs`)

Only the state consulted by `jni_query_mem_regions` is modelled; the JNI
marshalling of the resulting entries and the mmap/close of the returned fd
are not observable in the result.  Driver calls performed are returned as an
explicit trace. -/

/-- A memory-region record returned by the driver (`WuwaMemRegionEntry`). -/
structure WuwaMemRegionEntry where
  start : Nat
  stop : Nat
  type_ : Nat
  name : String
deriving DecidableEq, Repr

/-- Modelled from the spec: the `DriverManager` state consulted here —
whether a driver is loaded, and the bound pid (`0 = none`);
`is_process_bound()` is the latter being non-zero. -/
structure DriverManagerState where
  driver_loaded : Bool
  bound_pid : Int
deriving DecidableEq, Repr

/-- Modelled from the spec: a process is bound when `bound_pid ≠ 0`. -/
def DriverManagerState.is_process_bound (m : DriverManagerState) : Bool :=
  decide (m.bound_pid ≠ 0)

/-- The query-memory-regions JNI entry (`jni_query_mem_regions`): reject
when no process is bound, then when no driver is loaded, then pass the pid
through to the driver's `query_mem_regions`.  The second component is the
trace of pids queried on the driver. -/
def jni_query_mem_regions (manager : DriverManagerState) (pid : Int)
    (query : Int → Option (List WuwaMemRegionEntry)) :
    Except String (List WuwaMemRegionEntry) × List Int :=
  if ¬ manager.is_process_bound then
    (.error "No process is bound. Please bind a process before querying memory regions.", [])
  else if ¬ manager.driver_loaded then
    (.error "Driver is not initialized", [])
  else
    match query pid with
    | some entries => (.ok entries, [pid])
    | none => (.error "Unable to get memory regions", [pid])

/-! ## Theorems -/

/-! ### Sorting-helper lemmas -/

theorem mem_insLe {α : Type} (le : α → α → Bool) (x a : α) :
    ∀ l : List α, a ∈ insLe le x l ↔ a = x ∨ a ∈ l := by
  intro l
  induction l with
  | nil => simp [insLe]
  | cons y ys ih =>
    by_cases h : le x y = true
    · simp [insLe, h]
    · simp only [insLe, h, if_neg, Bool.not_eq_true] at *
      simp only [List.mem_cons, ih]
      tauto

theorem mem_sortLe {α : Type} (le : α → α → Bool) (a : α) :
    ∀ l : List α, a ∈ sortLe le l ↔ a ∈ l := by
  intro l
  induction l with
  | nil => simp [sortLe]
  | cons y ys ih =>
    simp only [sortLe, List.foldr_cons] at *
    rw [mem_insLe]
    simp [ih]

theorem pairwise_insLe {α : Type} (le : α → α → Bool)
    (htot : ∀ a b, le a b = true ∨ le b a = true)
    (htrans : ∀ a b c, le a b = true → le b c = true → le a c = true)
    (x : α) : ∀ l : List α, l.Pairwise (fun a b => le a b = true) →
      (insLe le x l).Pairwise (fun a b => le a b = true) := by
  intro l
  induction l with
  | nil =>
    intro _
    simp [insLe]
  | cons y ys ih =>
    intro hp
    rcases List.pairwise_cons.mp hp with ⟨hy, hys⟩
    by_cases h : le x y = true
    · simp only [insLe, h, if_pos]
      refine List.pairwise_cons.mpr ⟨?_, hp⟩
      intro b hb
      rcases List.mem_cons.mp hb with hbx | hb2
      · rw [hbx]; exact h
      · exact htrans x y b h (hy b hb2)
    · simp only [insLe, h, if_neg]
      refine List.pairwise_cons.mpr ⟨?_, ih hys⟩
      intro b hb
      rcases (mem_insLe le x b ys).mp hb with hbx | hb2
      · rw [hbx]
        rcases htot x y with hxy | hyx
        · exact absurd hxy h
        · exact hyx
      · exact hy b hb2

theorem pairwise_sortLe {α : Type} (le : α → α → Bool)
    (htot : ∀ a b, le a b = true ∨ le b a = true)
    (htrans : ∀ a b c, le a b = true → le b c = true → le a c = true)
    (l : List α) : (sortLe le l).Pairwise (fun a b => le a b = true) := by
  induction l with
  | nil => simp [sortLe]
  | cons y ys ih => exact pairwise_insLe le htot htrans y _ ih

/-! ### Chain-builder lemmas -/

theorem chainShapeOK_mono {d1 d2 : Nat} (h : d1 ≤ d2) (c : PointerChain)
    (hc : ChainShapeOK d1 c) : ChainShapeOK d2 c :=
  ⟨hc.1, hc.2.1, le_trans hc.2.2 h⟩

theorem pathNode_getD_len (layer : List PathNode) (d idx : Nat)
    (hl : ∀ nd ∈ layer, nd.offset_history.length ≤ d) :
    ((layer[idx]?).getD ⟨0, []⟩).offset_history.length ≤ d := by
  by_cases h : idx < layer.length
  · rw [List.getElem?_eq_getElem h]
    exact hl _ (List.getElem_mem h)
  · rw [List.getElem?_eq_none (by omega)]
    exact Nat.zero_le d

theorem processCandidates_spec (target : Nat) (mods : List VmStaticData)
    (expand so : Bool) (layer : List PathNode) (d : Nat)
    (hl : ∀ nd ∈ layer, nd.offset_history.length ≤ d) :
    ∀ cands : List Candidate,
      (∀ c ∈ (processCandidates target mods expand so layer cands).1,
        ChainShapeOK (d + 1) c) ∧
      (∀ nd ∈ (processCandidates target mods expand so layer cands).2,
        nd.offset_history.length ≤ d + 1) := by
  intro cands
  induction cands with
  | nil => simp [processCandidates]
  | cons c rest ih =>
    by_cases hct : c.ptr_address = target
    · simpa [processCandidates, hct] using ih
    · simp only [processCandidates, hct, if_neg, if_false]
      constructor
      · intro c' hc'
        rcases List.mem_append.mp hc' with hem | hrec
        · rcases hcl : classify_pointer c.ptr_address mods with _ | cls
          · rw [hcl] at hem; simp at hem
          · rw [hcl] at hem
            simp only [List.mem_singleton] at hem
            subst hem
            refine ⟨⟨cls.1, cls.2.1, wrapI64 (cls.2.2 : Int), rfl⟩, ?_, ?_⟩
            · intro s hs
              simp only [List.tail_cons] at hs
              rcases List.mem_append.mp hs with hpad | hmap
              · by_cases hoff : c.offset ≠ 0
                · rw [if_pos hoff] at hpad
                  simp only [List.mem_singleton] at hpad
                  exact ⟨c.offset, hpad⟩
                · rw [if_neg hoff] at hpad
                  simp at hpad
              · rcases List.mem_map.mp hmap with ⟨o, _, ho⟩
                exact ⟨o, ho.symm⟩
            · have hplen := pathNode_getD_len layer d c.parent_idx hl
              simp only [PointerChain.depth, List.length_cons, List.length_append,
                List.length_map, List.length_reverse]
              by_cases hoff : c.offset ≠ 0 <;> simp [hoff] <;> omega
        · exact (ih.1 c' hrec)
      · intro nd hnd
        rcases List.mem_append.mp hnd with hpu | hrec
        · by_cases hcond : expand = true ∧
              (¬ so = true ∨ (classify_pointer c.ptr_address mods).isNone = true)
          · rw [if_pos hcond] at hpu
            simp only [List.mem_singleton] at hpu
            subst hpu
            have hplen := pathNode_getD_len layer d c.parent_idx hl
            simp only [PathNode.child, List.length_append, List.length_singleton,
              List.getD_eq_getElem?_getD]
            omega
          · rw [if_neg hcond] at hpu
            simp at hpu
        · exact (ih.2 nd hrec)

theorem bfsGo_shape (lib : List PointerData) (mods : List VmStaticData)
    (cfg : PointerScanConfig) (cancel : Nat → Bool) :
    ∀ fuel depth layer results,
      fuel + depth ≤ cfg.max_depth →
      (∀ nd ∈ layer, nd.offset_history.length ≤ depth) →
      (∀ c ∈ results, ChainShapeOK cfg.max_depth c) →
      ∀ c ∈ bfsGo lib mods cfg cancel fuel depth layer results,
        ChainShapeOK cfg.max_depth c := by
  intro fuel
  induction fuel with
  | zero => intro depth layer results _ _ hres c hc; exact hres c hc
  | succ fuel ih =>
    intro depth layer results hfd hl hres c hc
    simp only [bfsGo] at hc
    by_cases hcan : cancel depth = true
    · rw [if_pos hcan] at hc; exact hres c hc
    · rw [if_neg hcan] at hc
      by_cases hemp : layer.isEmpty = true
      · rw [if_pos hemp] at hc; exact hres c hc
      · rw [if_neg hemp] at hc
        have hps := processCandidates_spec cfg.target_address mods
          (decide (depth + 1 < cfg.max_depth)) cfg.scan_static_only layer depth hl
          (scatterLayer lib cfg.max_offset layer)
        refine ih (depth + 1) _ _ (by omega) ?_ ?_ c hc
        · intro nd hnd
          by_cases hlen : (processCandidates cfg.target_address mods
              (decide (depth + 1 < cfg.max_depth)) cfg.scan_static_only layer
              (scatterLayer lib cfg.max_offset layer)).2.length >
              MAX_CANDIDATES_PER_LAYER
          · rw [if_pos hlen] at hnd
            exact hps.2 nd (List.mem_of_mem_take hnd)
          · rw [if_neg hlen] at hnd
            exact hps.2 nd hnd
        · intro c' hc'
          rcases List.mem_append.mp hc' with hold | hnew
          · exact hres c' hold
          · exact chainShapeOK_mono (by omega) c' (hps.1 c' hnew)

theorem processCandidates_fst_expand (target : Nat) (mods : List VmStaticData)
    (so : Bool) (layer : List PathNode) (e1 e2 : Bool) :
    ∀ cands : List Candidate,
      (processCandidates target mods e1 so layer cands).1 =
      (processCandidates target mods e2 so layer cands).1 := by
  intro cands
  induction cands with
  | nil => simp [processCandidates]
  | cons c rest ih =>
    by_cases hct : c.ptr_address = target
    · simpa [processCandidates, hct] using ih
    · simp only [processCandidates, hct, if_neg, if_false]
      rw [ih]

theorem bfsGo_cancel_truncate (lib : List PointerData)
    (mods : List VmStaticData) (cfg : PointerScanConfig) (cancel : Nat → Bool)
    (d : Nat) (hd : d < cfg.max_depth)
    (hc0 : ∀ k, k < d → cancel k = false) (hc1 : cancel d = true) :
    ∀ n j, d - j = n → j ≤ d → ∀ layer results,
      bfsGo lib mods cfg cancel (cfg.max_depth - j) j layer results =
      bfsGo lib mods {cfg with max_depth := d} (fun _ => false) (d - j) j layer
        results := by
  intro n
  induction n with
  | zero =>
    intro j hn hj layer results
    have hjd : j = d := by omega
    subst hjd
    have hfuel : cfg.max_depth - j = (cfg.max_depth - j - 1) + 1 := by omega
    rw [hfuel, hn]
    simp only [bfsGo, hc1, if_pos]
  | succ n ih =>
    intro j hn hj layer results
    have hjd : j < d := by omega
    have hfL : cfg.max_depth - j = (cfg.max_depth - (j + 1)) + 1 := by omega
    have hfR : d - j = (d - (j + 1)) + 1 := by omega
    rw [hfL, hfR]
    simp only [bfsGo, hc0 j hjd, Bool.false_eq_true, if_false]
    by_cases hemp : layer.isEmpty = true
    · rw [if_pos hemp, if_pos hemp]
    · rw [if_neg hemp, if_neg hemp]
      by_cases hstep : j + 1 < d
      · have he1 : decide (j + 1 < cfg.max_depth) = true := by
          simp only [decide_eq_true_eq]; omega
        have he2 : decide (j + 1 < ({cfg with max_depth := d} :
            PointerScanConfig).max_depth) = true := by
          simp only [decide_eq_true_eq]; omega
        rw [he1, he2]
        exact ih (j + 1) (by omega) (by omega) _ _
      · have hj1 : j + 1 = d := by omega
        have he1 : decide (j + 1 < cfg.max_depth) = true := by
          simp only [decide_eq_true_eq]; omega
        have he2 : decide (j + 1 < ({cfg with max_depth := d} :
            PointerScanConfig).max_depth) = false := by
          simp only [decide_eq_false_iff_not]; omega
        rw [he1, he2]
        rw [processCandidates_fst_expand cfg.target_address mods
          cfg.scan_static_only layer true false]
        have hfL2 : cfg.max_depth - (j + 1) = (cfg.max_depth - (j + 1) - 1) + 1 := by
          omega
        rw [hfL2]
        have hdj1 : d - (j + 1) = 0 := by omega
        rw [hdj1]
        rw [hj1]
        simp only [bfsGo, hc1, if_pos]

/-! ### Claims C1, C2, C4 (chain builder) and C10 (JNI) -/

/-- C1 counterexample: on the claim's literal boundary scenario — modules
`[{libA, base 0x400000, size 0x1000}]`, queue `[{0x400100, 0x10000},
{0x10100, 0x20000}]`, target `0x20000`, `max_depth = 2`, `max_offset = 0` —
`build_pointer_chains` returns zero chains, not the claimed single chain:
the depth-1 search looks for pointers to the record address `0x10100`, and
no queue value matches it. -/
theorem C1_counterexample :
    (build_pointer_chains [⟨0x400100, 0x10000⟩, ⟨0x10100, 0x20000⟩]
      [⟨"libA", 0, 0x400000, 0x1000⟩] ⟨0x20000, 2, 0, 8, false⟩
      (fun _ => false)).map List.length = .ok 0 := rfl

/-- C1 (amended): on the claim's literal boundary scenario the builder
returns no chain at all (the empty list): the walk cannot continue past the
first level because the second record's address `0x10100` differs from the
first record's value `0x10000`, and offset-0 steps would not be emitted in
any case. -/
theorem C1_scenario_returns_no_chain :
    build_pointer_chains [⟨0x400100, 0x10000⟩, ⟨0x10100, 0x20000⟩]
      [⟨"libA", 0, 0x400000, 0x1000⟩] ⟨0x20000, 2, 0, 8, false⟩
      (fun _ => false) = .ok [] := rfl

/-- C2 counterexample: a run whose cancellation predicate fires at depth 1
of a `max_depth = 2` BFS still returns (`Ok`) the chain found at depth 0 —
partial progress is returned, contradicting the claim that chains found so
far are discarded. -/
theorem C2_counterexample :
    (fun d => decide (d = 1)) 1 = true ∧
    build_pointer_chains [⟨0x400100, 0x20000⟩] [⟨"libA", 0, 0x400000, 0x1000⟩]
      ⟨0x20000, 2, 0, 8, false⟩ (fun d => decide (d = 1)) =
      .ok [⟨0x20000, [.staticRoot "libA" 0 0x100]⟩] :=
  ⟨rfl, rfl⟩

/-- C2 (amended): cancellation stops the BFS but keeps completed depths:
if the cancellation predicate first returns true at the depth-`d` check,
`build_pointer_chains` returns `Ok` with exactly the chains an uncancelled
run truncated to `max_depth = d` would return — only the current depth's
in-flight work is discarded, and no cancellation error is produced. -/
theorem C2_cancel_keeps_completed_depths (lib : List PointerData)
    (mods : List VmStaticData) (cfg : PointerScanConfig) (cancel : Nat → Bool)
    (d : Nat) (hd : d < cfg.max_depth)
    (hc0 : ∀ k, k < d → cancel k = false) (hc1 : cancel d = true) :
    build_pointer_chains lib mods cfg cancel =
      build_pointer_chains lib mods {cfg with max_depth := d} (fun _ => false) := by
  have h := bfsGo_cancel_truncate lib mods cfg cancel d hd hc0 hc1 d 0
    (Nat.sub_zero d) (Nat.zero_le d) [⟨cfg.target_address, []⟩] []
  rw [Nat.sub_zero, Nat.sub_zero] at h
  simp only [build_pointer_chains, build_pointer_chains_layered_bfs]
  rw [h]

/-- C2 witness: the amended statement instantiated on a concrete scenario
(cancellation fires at depth 1 of a `max_depth = 2` run). -/
theorem C2_cancel_keeps_completed_depths_witness :
    ((1 : Nat) < 2 ∧ (∀ k, k < 1 → (fun d => decide (d = 1)) k = false) ∧
      (fun d => decide (d = 1)) 1 = true) ∧
    build_pointer_chains [⟨0x400100, 0x20000⟩] [⟨"libA", 0, 0x400000, 0x1000⟩]
      ⟨0x20000, 2, 0, 8, false⟩ (fun d => decide (d = 1)) =
      build_pointer_chains [⟨0x400100, 0x20000⟩] [⟨"libA", 0, 0x400000, 0x1000⟩]
        ⟨0x20000, 1, 0, 8, false⟩ (fun _ => false) :=
  ⟨⟨by omega, by decide, by decide⟩,
    C2_cancel_keeps_completed_depths [⟨0x400100, 0x20000⟩]
      [⟨"libA", 0, 0x400000, 0x1000⟩] ⟨0x20000, 2, 0, 8, false⟩
      (fun d => decide (d = 1)) 1 (by decide) (by decide) (by decide)⟩

/-- C4 counterexample: a pointer located inside a static module that hits
the target with offset 0 at the first BFS level yields a chain
`[StaticRoot]` of `depth() = 0`, violating the claimed lower bound
`1 ≤ depth()`. -/
theorem C4_counterexample :
    build_pointer_chains [⟨0x400100, 0x20000⟩] [⟨"libA", 0, 0x400000, 0x1000⟩]
      ⟨0x20000, 2, 0, 8, false⟩ (fun _ => false) =
      .ok [⟨0x20000, [.staticRoot "libA" 0 0x100]⟩] ∧
    PointerChain.depth ⟨0x20000, [.staticRoot "libA" 0 0x100]⟩ = 0 :=
  ⟨rfl, rfl⟩

/-- C4 (amended): every chain returned by `build_pointer_chains` has a
`StaticRoot` first step, only `DynamicOffset` steps after it, and
`depth() ≤ config.max_depth`.  The claimed lower bound `1 ≤ depth()` does
not hold (see the counterexample): a zero offset at the static root is not
emitted as a step, so depth-0 chains occur. -/
theorem C4_chain_shape (lib : List PointerData) (mods : List VmStaticData)
    (cfg : PointerScanConfig) (cancel : Nat → Bool) (out : List PointerChain)
    (hout : build_pointer_chains lib mods cfg cancel = .ok out) :
    ∀ c ∈ out, (∃ n i o, c.steps.head? = some (.staticRoot n i o)) ∧
      (∀ s ∈ c.steps.tail, ∃ o, s = .dynamicOffset o) ∧
      c.depth ≤ cfg.max_depth := by
  have hout2 : out = sortLe chainLe
      (bfsGo lib mods cfg cancel cfg.max_depth 0 [⟨cfg.target_address, []⟩] []) := by
    simp only [build_pointer_chains, build_pointer_chains_layered_bfs,
      Except.ok.injEq] at hout
    exact hout.symm
  intro c hc
  rw [hout2] at hc
  have hm := (mem_sortLe chainLe c _).mp hc
  have := bfsGo_shape lib mods cfg cancel cfg.max_depth 0 _ [] (by omega)
    (by intro nd hnd; simp only [List.mem_singleton] at hnd; subst hnd; simp)
    (by simp) c hm
  exact this

/-- C4 witness: the amended statement instantiated on a concrete run whose
single result chain is `[StaticRoot libA]`. -/
theorem C4_chain_shape_witness :
    (∃ n i o, (PointerChain.mk 0x20000 [.staticRoot "libA" 0 0x100]).steps.head? =
      some (.staticRoot n i o)) ∧
    (∀ s ∈ (PointerChain.mk 0x20000 [.staticRoot "libA" 0 0x100]).steps.tail,
      ∃ o, s = .dynamicOffset o) ∧
    (PointerChain.mk 0x20000 [.staticRoot "libA" 0 0x100]).depth ≤
      PointerScanConfig.max_depth ⟨0x20000, 2, 0, 8, false⟩ :=
  C4_chain_shape [⟨0x400100, 0x20000⟩] [⟨"libA", 0, 0x400000, 0x1000⟩]
    ⟨0x20000, 2, 0, 8, false⟩ (fun _ => false)
    [⟨0x20000, [.staticRoot "libA" 0 0x100]⟩] rfl
    ⟨0x20000, [.staticRoot "libA" 0 0x100]⟩ (by simp)

/-- C10: the JNI query-memory-regions operation fails with an error whenever
no process is bound (`bound_pid = 0`), despite taking an explicit pid
argument, and performs no driver query (empty query trace). -/
theorem C10_query_requires_bound (manager : DriverManagerState) (pid : Int)
    (query : Int → Option (List WuwaMemRegionEntry))
    (h : manager.bound_pid = 0) :
    jni_query_mem_regions manager pid query =
      (.error "No process is bound. Please bind a process before querying memory regions.",
        []) := by
  simp [jni_query_mem_regions, DriverManagerState.is_process_bound, h]

/-- C10 witness: the unbound-state rejection at a concrete manager state and
pid. -/
theorem C10_query_requires_bound_witness :
    DriverManagerState.bound_pid ⟨true, 0⟩ = 0 ∧
    jni_query_mem_regions ⟨true, 0⟩ 42 (fun _ => some []) =
      (.error "No process is bound. Please bind a process before querying memory regions.",
        []) :=
  ⟨rfl, C10_query_requires_bound ⟨true, 0⟩ 42 (fun _ => some []) rfl⟩

/-! ### Claim C3: `find_pointers_to_range` -/

theorem lowerBoundGo_spec (queue : List PointerData) (bound : Nat)
    (hs : ∀ i j (_ : i < queue.length) (_ : j < queue.length), i ≤ j →
      (queue.get ⟨i, by omega⟩).value ≤ (queue.get ⟨j, by omega⟩).value) :
    ∀ fuel left right, right - left ≤ fuel → left ≤ right →
      right ≤ queue.length →
      (∀ i (_ : i < queue.length), i < left →
        (queue.get ⟨i, by omega⟩).value < bound) →
      (∀ i (_ : i < queue.length), right ≤ i →
        bound ≤ (queue.get ⟨i, by omega⟩).value) →
      left ≤ lowerBoundGo queue bound fuel left right ∧
      lowerBoundGo queue bound fuel left right ≤ right ∧
      (∀ i (_ : i < queue.length), i < lowerBoundGo queue bound fuel left right →
        (queue.get ⟨i, by omega⟩).value < bound) ∧
      (∀ i (_ : i < queue.length), lowerBoundGo queue bound fuel left right ≤ i →
        bound ≤ (queue.get ⟨i, by omega⟩).value) := by
  intro fuel
  induction fuel with
  | zero =>
    intro left right hfuel hlr _ hl hr
    have : left = right := by omega
    subst this
    exact ⟨le_refl _, le_refl _, hl, hr⟩
  | succ fuel ih =>
    intro left right hfuel hlr hrlen hl hr
    by_cases hlt : left < right
    · have hmid : left + (right - left) / 2 < queue.length := by omega
      have hget : queue[left + (right - left) / 2]? =
          some (queue.get ⟨left + (right - left) / 2, hmid⟩) := by
        rw [List.getElem?_eq_getElem hmid]
        simp [List.get_eq_getElem]
      simp only [lowerBoundGo, if_pos hlt, hget]
      by_cases hv : (queue.get ⟨left + (right - left) / 2, hmid⟩).value < bound
      · rw [if_pos hv]
        have hres := ih (left + (right - left) / 2 + 1) right (by omega) (by omega)
          hrlen
          (by
            intro i hi hilt
            exact lt_of_le_of_lt (hs i (left + (right - left) / 2) hi hmid (by omega)) hv)
          hr
        exact ⟨by omega, hres.2.1, hres.2.2⟩
      · rw [if_neg hv]
        push_neg at hv
        have hres := ih left (left + (right - left) / 2) (by omega) (by omega)
          (by omega) hl
          (by
            intro i hi hile
            exact le_trans hv (hs (left + (right - left) / 2) i hmid hi hile))
        exact ⟨hres.1, by omega, hres.2.2⟩
    · simp only [lowerBoundGo, if_neg hlt]
      have : left = right := by omega
      subst this
      exact ⟨le_refl _, le_refl _, hl, hr⟩

theorem filterMap_range'_map {α β : Type} (l : List α) (f : α → β) :
    ∀ (n a : Nat), a + n ≤ l.length →
      (List.range' a n).filterMap (fun i => (l[i]?).map f) =
      ((l.drop a).take n).map f := by
  intro n
  induction n with
  | zero => intro a _; simp
  | succ n ih =>
    intro a ha
    have hal : a < l.length := by omega
    rw [List.range'_succ, List.drop_eq_getElem_cons hal]
    simp only [List.filterMap_cons, List.getElem?_eq_getElem hal, List.take_succ_cons,
      List.map_cons]
    simp [ih (a + 1) (by omega)]

theorem filter_eq_drop_take {α : Type} (P : α → Bool) :
    ∀ (l : List α) (a b : Nat), a ≤ b → b ≤ l.length →
      (∀ i (_ : i < l.length), i < a → P (l.get ⟨i, by omega⟩) = false) →
      (∀ i (_ : i < l.length), a ≤ i → i < b → P (l.get ⟨i, by omega⟩) = true) →
      (∀ i (_ : i < l.length), b ≤ i → P (l.get ⟨i, by omega⟩) = false) →
      l.filter P = (l.drop a).take (b - a) := by
  intro l
  induction l with
  | nil =>
    intro a b _ hb _ _ _
    simp
  | cons x xs ih =>
    intro a b hab hb h1 h2 h3
    match a, b with
    | 0, 0 =>
      have hx : P x = false := h3 0 (by simp) (le_refl 0)
      simp only [List.filter_cons, hx, Bool.false_eq_true, if_false, List.drop_zero,
        List.take_zero]
      have := ih 0 0 (le_refl 0) (Nat.zero_le _)
        (by intro i hi h; omega)
        (by intro i hi h1' h2'; omega)
        (by intro i hi _; exact h3 (i + 1) (by simp; omega) (by omega))
      simpa using this
    | 0, b' + 1 =>
      have hx : P x = true := h2 0 (by simp) (le_refl 0) (by omega)
      simp only [List.filter_cons, hx, if_true, List.drop_zero]
      have hb' : b' ≤ xs.length := by simp at hb; omega
      have := ih 0 b' (by omega) hb'
        (by intro i hi h; omega)
        (by intro i hi h1' h2'; exact h2 (i + 1) (by simp; omega) (by omega) (by omega))
        (by intro i hi h; exact h3 (i + 1) (by simp; omega) (by omega))
      simp only [List.drop_zero] at this
      simp only [Nat.sub_zero] at this ⊢
      rw [List.take_succ_cons, this]
    | a' + 1, b' + 1 =>
      have hx : P x = false := h1 0 (by simp) (by omega)
      simp only [List.filter_cons, hx, Bool.false_eq_true, if_false]
      have hb' : b' ≤ xs.length := by simp at hb; omega
      have := ih a' b' (by omega) hb'
        (by intro i hi h; exact h1 (i + 1) (by simp; omega) (by omega))
        (by intro i hi h1' h2'; exact h2 (i + 1) (by simp; omega) (by omega) (by omega))
        (by intro i hi h; exact h3 (i + 1) (by simp; omega) (by omega))
      rw [List.drop_succ_cons, this]
      congr 1
      omega

/-- C3 counterexample: at `target = u64::MAX` with `max_offset = 0`, the
record `{address 10, value u64::MAX}` satisfies `|value − target| ≤
max_offset`, yet `find_pointers_to_range` returns nothing: the exclusive
upper bound `target.saturating_add(max_offset + 1)` saturates to `u64::MAX`
and excludes the value. -/
theorem C3_counterexample :
    find_pointers_to_range [⟨10, 18446744073709551615⟩] 18446744073709551615 0 = [] ∧
    (([⟨10, 18446744073709551615⟩] : List PointerData).filter fun r =>
      decide (max r.value 18446744073709551615 - min r.value 18446744073709551615 ≤ 0)) =
      [⟨10, 18446744073709551615⟩] :=
  ⟨rfl, rfl⟩

/-- C3 (amended): for every queue sorted by value and every `u64` target,
`find_pointers_to_range(queue, t, m)` returns exactly those records `r` with
`t.saturating_sub(m) ≤ r.value < t.saturating_add(m + 1)` — that is, those
with `|r.value − t| ≤ m` except that records with `value = u64::MAX` are
excluded whenever `t + m + 1` saturates — each emitted as
`(r.address, offset)` with the `i64` wrapping offset `t − r.value`. -/
theorem C3_find_range_exact (lib : List PointerData) (target max_offset : Nat)
    (hsort : lib.Pairwise (fun a b => a.value ≤ b.value))
    (ht : target < U64MOD) :
    find_pointers_to_range lib target max_offset =
      (lib.filter fun r => decide (target - max_offset ≤ r.value ∧
        r.value < satAdd64 target (max_offset + 1))).map
        fun r => (r.address, wrapI64 ((target : Int) - (r.value : Int))) := by
  by_cases hnil : lib.length = 0
  · have hlib : lib = [] := List.length_eq_zero.mp hnil
    subst hlib
    rfl
  · have hs : ∀ i j (_ : i < lib.length) (_ : j < lib.length), i ≤ j →
        (lib.get ⟨i, by omega⟩).value ≤ (lib.get ⟨j, by omega⟩).value := by
      intro i j hi hj hij
      rcases Nat.eq_or_lt_of_le hij with heq | hlt
      · subst heq; exact le_refl _
      · have := List.pairwise_iff_getElem.mp hsort i j hi hj hlt
        simpa [List.get_eq_getElem] using this
    have hminmax : target - max_offset ≤ target ∧
        target ≤ satAdd64 target (max_offset + 1) := by
      constructor
      · omega
      · simp only [satAdd64, U64MOD] at *
        omega
    have h1 := lowerBoundGo_spec lib (target - max_offset) hs lib.length 0
      lib.length (by omega) (by omega) (le_refl _)
      (by intro i hi h; omega) (by intro i hi h; omega)
    have hfuel1 : lowerBoundLoop lib (target - max_offset) 0 lib.length =
        lowerBoundGo lib (target - max_offset) lib.length 0 lib.length := by
      simp [lowerBoundLoop]
    have h2 := lowerBoundGo_spec lib (satAdd64 target (max_offset + 1)) hs
      (lib.length - lowerBoundGo lib (target - max_offset) lib.length 0 lib.length)
      (lowerBoundGo lib (target - max_offset) lib.length 0 lib.length)
      lib.length (by omega) (by omega) (le_refl _)
      (by
        intro i hi h
        exact lt_of_lt_of_le (h1.2.2.1 i hi h) (le_trans hminmax.1 hminmax.2))
      (by intro i hi h; omega)
    have hfuel2 : lowerBoundLoop lib (satAdd64 target (max_offset + 1))
        (lowerBoundGo lib (target - max_offset) lib.length 0 lib.length) lib.length =
        lowerBoundGo lib (satAdd64 target (max_offset + 1))
          (lib.length - lowerBoundGo lib (target - max_offset) lib.length 0 lib.length)
          (lowerBoundGo lib (target - max_offset) lib.length 0 lib.length)
          lib.length := by
      simp [lowerBoundLoop]
    have hunfold : find_pointers_to_range lib target max_offset =
        (List.range'
            (lowerBoundGo lib (target - max_offset) lib.length 0 lib.length)
            (lowerBoundGo lib (satAdd64 target (max_offset + 1))
              (lib.length - lowerBoundGo lib (target - max_offset) lib.length 0 lib.length)
              (lowerBoundGo lib (target - max_offset) lib.length 0 lib.length)
              lib.length -
              lowerBoundGo lib (target - max_offset) lib.length 0 lib.length)).filterMap
          fun i => (lib[i]?).map
            fun r => (r.address, wrapI64 ((target : Int) - (r.value : Int))) := by
      simp only [find_pointers_to_range, find_range_in_pointer_queue, hnil,
        if_false, hfuel1, hfuel2]
    rw [hunfold]
    rw [filterMap_range'_map lib _ _ _ (by omega)]
    rw [filter_eq_drop_take _ lib
      (lowerBoundGo lib (target - max_offset) lib.length 0 lib.length)
      (lowerBoundGo lib (satAdd64 target (max_offset + 1))
        (lib.length - lowerBoundGo lib (target - max_offset) lib.length 0 lib.length)
        (lowerBoundGo lib (target - max_offset) lib.length 0 lib.length)
        lib.length) (by omega) (by omega)
      (by
        intro i hi h
        simp only [decide_eq_false_iff_not, not_and, not_lt]
        intro hge
        exact absurd (h1.2.2.1 i hi h) (by omega)
      )
      (by
        intro i hi hge hlt2
        simp only [decide_eq_true_eq]
        exact ⟨h1.2.2.2 i hi hge, h2.2.2.1 i hi hlt2⟩)
      (by
        intro i hi h
        simp only [decide_eq_false_iff_not, not_and, not_lt]
        intro _
        exact h2.2.2.2 i hi h)]

/-- C3 witness: the amended statement instantiated on the spec's own
boundary scenario (queue `[{10,100},{20,105},{30,115}]`, target 107,
max_offset 5), whose result is `[(20, +2)]`. -/
theorem C3_find_range_exact_witness :
    (([⟨10, 100⟩, ⟨20, 105⟩, ⟨30, 115⟩] : List PointerData).Pairwise
      (fun a b => a.value ≤ b.value) ∧ (107 : Nat) < U64MOD) ∧
    find_pointers_to_range [⟨10, 100⟩, ⟨20, 105⟩, ⟨30, 115⟩] 107 5 =
      (([⟨10, 100⟩, ⟨20, 105⟩, ⟨30, 115⟩] : List PointerData).filter fun r =>
        decide ((107 : Nat) - 5 ≤ r.value ∧ r.value < satAdd64 107 (5 + 1))).map
        fun r => (r.address, wrapI64 ((107 : Int) - (r.value : Int))) :=
  ⟨⟨by decide, by decide⟩,
    C3_find_range_exact [⟨10, 100⟩, ⟨20, 105⟩, ⟨30, 115⟩] 107 5 (by decide) (by decide)⟩

/-! ### Claim C9: `MmapQueue` round-trip -/

theorem leBytes_length : ∀ n v, (leBytes n v).length = n
  | 0, _ => rfl
  | n + 1, v => by simp [leBytes, leBytes_length n (v / 256)]

theorem leNat_leBytes : ∀ n v, v < 256 ^ n → leNat (leBytes n v) = v := by
  intro n
  induction n with
  | zero =>
    intro v hv
    have : v = 0 := by simpa using hv
    subst this
    rfl
  | succ n ih =>
    intro v hv
    have hdiv : v / 256 < 256 ^ n := by
      apply Nat.div_lt_of_lt_mul
      rw [pow_succ] at hv
      omega
    simp only [leBytes, leNat]
    rw [ih (v / 256) hdiv]
    omega

theorem readBytes_writeBytes_sub (f : Nat → Nat) (start : Nat) (bs : List Nat)
    (off len : Nat) (h : off + len ≤ bs.length) :
    readBytesFun (writeBytesFun f start bs) (start + off) len =
      (bs.drop off).take len := by
  apply List.ext_getElem
  · simp only [readBytesFun, List.length_map, List.length_range, List.length_take,
      List.length_drop]
    omega
  · intro i h1 h2
    simp only [readBytesFun, List.length_map, List.length_range] at h1
    simp only [List.length_take, List.length_drop] at h2
    simp only [readBytesFun, List.getElem_map, List.getElem_range, writeBytesFun]
    rw [if_pos (by omega)]
    have hbi : off + i < bs.length := by omega
    rw [List.getElem_take, List.getElem_drop]
    rw [List.getD_eq_getElem?_getD, List.getElem?_eq_getElem (by omega : start + off + i - start < bs.length)]
    simp only [Option.getD_some]
    congr 1
    omega

theorem readBytes_writeBytes_outside (f : Nat → Nat) (start : Nat) (bs : List Nat)
    (lo len : Nat) (h : lo + len ≤ start) :
    readBytesFun (writeBytesFun f start bs) lo len = readBytesFun f lo len := by
  simp only [readBytesFun]
  apply List.map_congr_left
  intro i hi
  simp only [List.mem_range] at hi
  simp only [writeBytesFun]
  rw [if_neg (by omega)]

theorem serializePointerData_length (r : PointerData) :
    (serializePointerData r).length = 16 := by
  simp [serializePointerData, leBytes_length]

theorem push_get_last (q : MmapQueue) (x : PointerData)
    (hia : x.address < U64MOD) (hiv : x.value < U64MOD)
    (hwf : q.indices.length = q.count) :
    (q.push x).get ((q.push x).len - 1) = some x := by
  have h256 : U64MOD = 256 ^ 8 := by norm_num [U64MOD]
  have hlen : (serializePointerData x).length = 16 := serializePointerData_length x
  simp only [MmapQueue.push, MmapQueue.get, MmapQueue.len, Nat.add_sub_cancel]
  rw [← hwf, List.getElem?_concat_length]
  simp only [Option.map_some']
  have hoff : ∀ off len, off + len ≤ 16 →
      readBytesFun
        (writeBytesFun q.data
          (q.write_offset + (ALIGNMENT - q.write_offset % ALIGNMENT) % ALIGNMENT)
          (serializePointerData x))
        (q.write_offset + (ALIGNMENT - q.write_offset % ALIGNMENT) % ALIGNMENT + off)
        len = ((serializePointerData x).drop off).take len := by
    intro off len hol
    exact readBytes_writeBytes_sub q.data _ (serializePointerData x) off len (by omega)
  have h1 := hoff 0 8 (by omega)
  have h2 := hoff 8 8 (by omega)
  rw [Nat.add_zero] at h1
  rw [h1, h2]
  have hdrop : ((serializePointerData x).drop 0).take 8 = leBytes 8 x.address := by
    simp only [serializePointerData, List.drop_zero]
    rw [List.take_append_of_le_length (by rw [leBytes_length])]
    rw [List.take_of_length_le (by rw [leBytes_length])]
  have hdrop2 : ((serializePointerData x).drop 8).take 8 = leBytes 8 x.value := by
    simp only [serializePointerData]
    rw [List.drop_append_of_le_length (by rw [leBytes_length])]
    rw [List.drop_of_length_le (by rw [leBytes_length])]
    rw [List.nil_append]
    exact List.take_of_length_le (by rw [leBytes_length])
  rw [hdrop, hdrop2, leNat_leBytes 8 x.address (by omega),
    leNat_leBytes 8 x.value (by omega)]

theorem push_get_earlier (q : MmapQueue) (x : PointerData) (i : Nat)
    (hi : i < q.indices.length)
    (hinv : ∀ e ∈ q.indices, e.2 = 16 ∧ e.1 + 16 ≤ q.write_offset) :
    (q.push x).get i = q.get i := by
  simp only [MmapQueue.push, MmapQueue.get]
  rw [List.getElem?_append_left hi]
  rw [List.getElem?_eq_getElem hi]
  simp only [Option.map_some']
  have he := hinv (q.indices.get ⟨i, hi⟩) (List.get_mem q.indices i hi)
  have h1 := readBytes_writeBytes_outside q.data
    (q.write_offset + (ALIGNMENT - q.write_offset % ALIGNMENT) % ALIGNMENT)
    (serializePointerData x) (q.indices.get ⟨i, hi⟩).1 8 (by omega)
  have h2 := readBytes_writeBytes_outside q.data
    (q.write_offset + (ALIGNMENT - q.write_offset % ALIGNMENT) % ALIGNMENT)
    (serializePointerData x) ((q.indices.get ⟨i, hi⟩).1 + 8) 8 (by omega)
  simp only [List.get_eq_getElem] at h1 h2
  rw [h1, h2]

theorem push_invariant (q : MmapQueue) (x : PointerData)
    (hwf : q.indices.length = q.count)
    (hinv : ∀ e ∈ q.indices, e.2 = 16 ∧ e.1 + 16 ≤ q.write_offset) :
    (q.push x).indices.length = (q.push x).count ∧
    (∀ e ∈ (q.push x).indices, e.2 = 16 ∧ e.1 + 16 ≤ (q.push x).write_offset) := by
  have hlen := serializePointerData_length x
  constructor
  · simp [MmapQueue.push, hwf]
  · intro e he
    simp only [MmapQueue.push, List.mem_append, List.mem_singleton] at he
    rcases he with hold | hnew
    · have h := hinv e hold
      simp only [MmapQueue.push]
      exact ⟨h.1, by omega⟩
    · subst hnew
      simp only [MmapQueue.push]
      exact ⟨hlen, by omega⟩

theorem push_batch_spec :
    ∀ (items : List PointerData) (q : MmapQueue),
      q.indices.length = q.count →
      (∀ e ∈ q.indices, e.2 = 16 ∧ e.1 + 16 ≤ q.write_offset) →
      (∀ r ∈ items, r.address < U64MOD ∧ r.value < U64MOD) →
      (q.push_batch items).len = q.len + items.length ∧
      (∀ i, i < q.count → (q.push_batch items).get i = q.get i) ∧
      (∀ i (h : i < items.length),
        (q.push_batch items).get (q.count + i) = some (items.get ⟨i, h⟩)) := by
  intro items
  induction items with
  | nil =>
    intro q _ _ _
    refine ⟨by simp [MmapQueue.push_batch], fun i _ => rfl, fun i h => by simp at h⟩
  | cons x rest ih =>
    intro q hwf hinv hb
    have hpb : q.push_batch (x :: rest) = (q.push x).push_batch rest := by
      simp [MmapQueue.push_batch]
    have hinv' := push_invariant q x hwf hinv
    have hx := hb x (List.mem_cons_self x rest)
    have hcount : (q.push x).count = q.count + 1 := rfl
    have ihq := ih (q.push x) hinv'.1 hinv'.2
      (fun r hr => hb r (List.mem_cons_of_mem x hr))
    refine ⟨?_, ?_, ?_⟩
    · rw [hpb, ihq.1]
      simp only [MmapQueue.len, hcount, List.length_cons]
      omega
    · intro i hi
      rw [hpb, ihq.2.1 i (by omega)]
      exact push_get_earlier q x i (by omega) hinv
    · intro i h
      rw [hpb]
      match i with
      | 0 =>
        have hp := ihq.2.1 q.count (by omega)
        rw [Nat.add_zero, hp]
        have := push_get_last q x hx.1 hx.2 hwf
        simpa [MmapQueue.len, hcount] using this
      | j + 1 =>
        have := ihq.2.2 j (by simp at h; omega)
        rw [hcount] at this
        have harith : q.count + (j + 1) = q.count + 1 + j := by omega
        rw [harith, this]
        rfl

/-- C9: MmapQueue round-trip: for every record with `u64`-sized fields and
every well-indexed queue state (growth always succeeds in the model), after
`push(x)` the length has grown by one and `get(len()-1)` returns a view
equal to `x`; pushing `n` items into a fresh queue yields `len() = n` with
`get(i)` defined — and equal to the `i`-th pushed record — for all
`i < n`. -/
theorem C9_mmapqueue_roundtrip :
    (∀ (q : MmapQueue) (x : PointerData),
      x.address < U64MOD → x.value < U64MOD → q.indices.length = q.count →
      (q.push x).len = q.len + 1 ∧ (q.push x).get ((q.push x).len - 1) = some x) ∧
    (∀ items : List PointerData,
      (∀ r ∈ items, r.address < U64MOD ∧ r.value < U64MOD) →
      (MmapQueue.new.push_batch items).len = items.length ∧
      ∀ i (h : i < items.length),
        (MmapQueue.new.push_batch items).get i = some (items.get ⟨i, h⟩)) := by
  constructor
  · intro q x hia hiv hwf
    exact ⟨rfl, push_get_last q x hia hiv hwf⟩
  · intro items hb
    have h := push_batch_spec items MmapQueue.new rfl (by simp [MmapQueue.new]) hb
    refine ⟨by simpa [MmapQueue.new, MmapQueue.len] using h.1, ?_⟩
    intro i hi
    have := h.2.2 i hi
    simpa [MmapQueue.new] using this

/-- C9 witness: a concrete push/get round-trip and a concrete two-record
batch on a fresh queue. -/
theorem C9_mmapqueue_roundtrip_witness :
    (((5 : Nat) < U64MOD ∧ (7 : Nat) < U64MOD ∧
        MmapQueue.new.indices.length = MmapQueue.new.count) ∧
      (MmapQueue.new.push ⟨5, 7⟩).len = MmapQueue.new.len + 1 ∧
      (MmapQueue.new.push ⟨5, 7⟩).get ((MmapQueue.new.push ⟨5, 7⟩).len - 1) =
        some ⟨5, 7⟩) ∧
    ((∀ r ∈ ([⟨1, 2⟩, ⟨3, 4⟩] : List PointerData),
        r.address < U64MOD ∧ r.value < U64MOD) ∧
      (MmapQueue.new.push_batch [⟨1, 2⟩, ⟨3, 4⟩]).len =
        ([⟨1, 2⟩, ⟨3, 4⟩] : List PointerData).length ∧
      ∀ i (h : i < ([⟨1, 2⟩, ⟨3, 4⟩] : List PointerData).length),
        (MmapQueue.new.push_batch [⟨1, 2⟩, ⟨3, 4⟩]).get i =
          some (([⟨1, 2⟩, ⟨3, 4⟩] : List PointerData).get ⟨i, h⟩)) :=
  ⟨⟨⟨by decide, by decide, rfl⟩,
    C9_mmapqueue_roundtrip.1 MmapQueue.new ⟨5, 7⟩ (by decide) (by decide) rfl⟩,
    ⟨by decide, C9_mmapqueue_roundtrip.2 [⟨1, 2⟩, ⟨3, 4⟩] (by decide)⟩⟩

/-! ### Claim C7: fuzzy refinement -/

theorem refineCollect_no_cancel (readVal : Nat → Nat → Option (List Nat))
    (cancel : Nat → Bool) (hc : ∀ n, cancel n = false) :
    ∀ (items : List FuzzySearchResultItem) (idx : Nat),
      refineCollectLoop readVal cancel idx items =
        items.filterMap fun it =>
          (readVal it.address it.value_type.size).map fun buf => (it, buf) := by
  intro items
  induction items with
  | nil => intro idx; rfl
  | cons it rest ih =>
    intro idx
    simp only [refineCollectLoop, hc idx, and_false, Bool.false_eq_true, if_false,
      List.filterMap_cons]
    rcases hr : readVal it.address it.value_type.size with _ | buf
    · simp only [Option.map_none']
      exact ih (idx + 1)
    · simp only [Option.map_some']
      rw [ih (idx + 1)]

theorem mem_setInsertItem (x a : FuzzySearchResultItem) :
    ∀ l, a ∈ setInsertItem l x → a = x ∨ a ∈ l := by
  intro l
  induction l with
  | nil => intro h; simpa [setInsertItem] using h
  | cons y ys ih =>
    intro h
    simp only [setInsertItem] at h
    by_cases h1 : x.address < y.address
    · rw [if_pos h1] at h
      rcases List.mem_cons.mp h with h2 | h2
      · exact Or.inl h2
      · exact Or.inr h2
    · rw [if_neg h1] at h
      by_cases h2 : x.address = y.address
      · rw [if_pos h2] at h
        exact Or.inr h
      · rw [if_neg h2] at h
        rcases List.mem_cons.mp h with h3 | h3
        · exact Or.inr (List.mem_cons.mpr (Or.inl h3))
        · rcases ih h3 with h4 | h4
          · exact Or.inl h4
          · exact Or.inr (List.mem_cons.mpr (Or.inr h4))

theorem mem_setInsertItem_iff (x a : FuzzySearchResultItem) :
    ∀ l, (∀ y ∈ l, x.address ≠ y.address) →
      (a ∈ setInsertItem l x ↔ a = x ∨ a ∈ l) := by
  intro l
  induction l with
  | nil => intro _; simp [setInsertItem]
  | cons y ys ih =>
    intro hx
    have hxy : x.address ≠ y.address := hx y (List.mem_cons_self y ys)
    simp only [setInsertItem]
    by_cases h1 : x.address < y.address
    · rw [if_pos h1]
      simp only [List.mem_cons]
    · rw [if_neg h1, if_neg hxy]
      simp only [List.mem_cons]
      rw [ih (fun z hz => hx z (List.mem_cons_of_mem y hz))]
      tauto

theorem mem_foldl_setInsertItem :
    ∀ (rest acc : List FuzzySearchResultItem),
      (∀ r ∈ rest, ∀ a ∈ acc, r.address ≠ a.address) →
      rest.Pairwise (fun a b => a.address ≠ b.address) →
      ∀ y, y ∈ rest.foldl setInsertItem acc ↔ y ∈ acc ∨ y ∈ rest := by
  intro rest
  induction rest with
  | nil => intro acc _ _ y; simp
  | cons x rest ih =>
    intro acc hcross hpair y
    simp only [List.foldl_cons]
    rcases List.pairwise_cons.mp hpair with ⟨hxrest, hrest⟩
    have hxacc : ∀ a ∈ acc, x.address ≠ a.address :=
      fun a ha => hcross x (List.mem_cons_self x rest) a ha
    have hcross' : ∀ r ∈ rest, ∀ a ∈ setInsertItem acc x, r.address ≠ a.address := by
      intro r hr a ha
      rcases (mem_setInsertItem_iff x a acc hxacc).mp ha with h1 | h1
      · subst h1
        exact fun heq => (hxrest r hr) heq.symm
      · exact hcross r (List.mem_cons_of_mem x hr) a h1
    rw [ih (setInsertItem acc x) hcross' hrest y,
      mem_setInsertItem_iff x y acc hxacc]
    simp only [List.mem_cons]
    tauto

theorem mem_listToSet (l : List FuzzySearchResultItem)
    (hd : l.Pairwise (fun a b => a.address ≠ b.address)) (y : FuzzySearchResultItem) :
    y ∈ listToSet l ↔ y ∈ l := by
  unfold listToSet
  rw [mem_foldl_setInsertItem l [] (by intro r _ a ha; simp at ha) hd y]
  simp

theorem pairwise_filterMap_of_pairwise {α β : Type} (R : α → α → Prop)
    (S : β → β → Prop) (f : α → Option β)
    (hf : ∀ a b x y, R a b → f a = some x → f b = some y → S x y) :
    ∀ l : List α, l.Pairwise R → (l.filterMap f).Pairwise S := by
  intro l
  induction l with
  | nil => intro _; simp
  | cons a l ih =>
    intro hp
    rcases List.pairwise_cons.mp hp with ⟨ha, hl⟩
    rcases hfa : f a with _ | x
    · simpa [List.filterMap_cons, hfa] using ih hl
    · simp only [List.filterMap_cons, hfa]
      refine List.pairwise_cons.mpr ⟨?_, ih hl⟩
      intro y hy
      rcases List.mem_filterMap.mp hy with ⟨b, hb, hfb⟩
      exact hf a b x y (ha b hb) hfa hfb

/-- C7: in `fuzzy_refine_search` (in a run whose cancellation predicate
never fires, over input items with pairwise-distinct addresses), every input
item whose re-read through the driver fails is absent from the result, and
the returned set contains exactly those input items that were successfully
re-read and whose old value and new bytes satisfy `matches_condition` under
the given condition, each carried with its newly read bytes. -/
theorem C7_refine_exact (readVal : Nat → Nat → Option (List Nat))
    (items : List FuzzySearchResultItem) (condition : FuzzyCondition)
    (cancel : Nat → Bool) (hc : ∀ n, cancel n = false)
    (hd : items.Pairwise (fun a b => a.address ≠ b.address))
    (out : List FuzzySearchResultItem)
    (hout : fuzzy_refine_search readVal items condition cancel = .ok out) :
    ∀ x, x ∈ out ↔ ∃ it ∈ items, ∃ buf,
      readVal it.address it.value_type.size = some buf ∧
      it.matches_condition buf condition = true ∧
      x = FuzzySearchResultItem.from_bytes it.address buf it.value_type := by
  intro x
  by_cases hemp : items.isEmpty = true
  · have hitems : items = [] := by
      cases items with
      | nil => rfl
      | cons a l => simp at hemp
    subst hitems
    simp only [fuzzy_refine_search, List.isEmpty_nil, if_true, Except.ok.injEq] at hout
    subst hout
    simp
  · simp only [fuzzy_refine_search, hemp, Bool.false_eq_true, if_false,
      Except.ok.injEq] at hout
    rw [refineCollect_no_cancel readVal cancel hc items 0] at hout
    subst hout
    set collected := items.filterMap fun it =>
      (readVal it.address it.value_type.size).map fun buf => (it, buf) with hcol
    have hcolpair : collected.Pairwise (fun p q => p.1.address ≠ q.1.address) := by
      refine pairwise_filterMap_of_pairwise _ _ _ ?_ items hd
      intro a b p q hab hfa hfb
      rcases Option.map_eq_some'.mp hfa with ⟨bufa, _, hpa⟩
      rcases Option.map_eq_some'.mp hfb with ⟨bufb, _, hpb⟩
      subst hpa
      subst hpb
      exact hab
    have hmatchpair : (collected.filterMap fun p =>
        if p.1.matches_condition p.2 condition then
          some (FuzzySearchResultItem.from_bytes p.1.address p.2 p.1.value_type)
        else none).Pairwise (fun a b => a.address ≠ b.address) := by
      refine pairwise_filterMap_of_pairwise _ _ _ ?_ collected hcolpair
      intro p q u v hpq hfu hfv
      by_cases hmp : p.1.matches_condition p.2 condition = true
      · rw [if_pos hmp] at hfu
        by_cases hmq : q.1.matches_condition q.2 condition = true
        · rw [if_pos hmq] at hfv
          cases hfu
          cases hfv
          exact hpq
        · rw [if_neg hmq] at hfv
          cases hfv
      · rw [if_neg hmp] at hfu
        cases hfu
    rw [mem_listToSet _ hmatchpair x]
    rw [List.mem_filterMap]
    constructor
    · rintro ⟨p, hp, hif⟩
      by_cases hm : p.1.matches_condition p.2 condition = true
      · rw [if_pos hm] at hif
        rcases List.mem_filterMap.mp hp with ⟨it, hit, hmap⟩
        rcases Option.map_eq_some'.mp hmap with ⟨buf, hread, hpeq⟩
        subst hpeq
        cases hif
        exact ⟨it, hit, buf, hread, hm, rfl⟩
      · rw [if_neg hm] at hif
        cases hif
    · rintro ⟨it, hit, buf, hread, hm, hx⟩
      refine ⟨(it, buf), ?_, ?_⟩
      · exact List.mem_filterMap.mpr ⟨it, hit, by rw [hread]; rfl⟩
      · rw [if_pos hm, hx]

/-- C7 witness: two items, one whose re-read fails (dropped) and one
re-read unchanged (kept with its new bytes), under the `Unchanged`
condition. -/
theorem C7_refine_exact_witness :
    ((∀ n : Nat, (fun _ : Nat => false) n = false) ∧
      ([⟨4096, .u32, [1, 2, 3, 4]⟩, ⟨8192, .u32, [0, 0, 0, 0]⟩] :
        List FuzzySearchResultItem).Pairwise (fun a b => a.address ≠ b.address) ∧
      fuzzy_refine_search
        (fun a s => if a = 4096 ∧ s = 4 then some [1, 2, 3, 4] else none)
        [⟨4096, .u32, [1, 2, 3, 4]⟩, ⟨8192, .u32, [0, 0, 0, 0]⟩]
        .unchanged (fun _ => false) = .ok [⟨4096, .u32, [1, 2, 3, 4]⟩]) ∧
    ((⟨4096, .u32, [1, 2, 3, 4]⟩ : FuzzySearchResultItem) ∈
        ([⟨4096, .u32, [1, 2, 3, 4]⟩] : List FuzzySearchResultItem) ↔
      ∃ it ∈ ([⟨4096, .u32, [1, 2, 3, 4]⟩, ⟨8192, .u32, [0, 0, 0, 0]⟩] :
          List FuzzySearchResultItem), ∃ buf,
        (fun a s => if a = 4096 ∧ s = 4 then some [1, 2, 3, 4] else none)
          it.address it.value_type.size = some buf ∧
        it.matches_condition buf .unchanged = true ∧
        (⟨4096, .u32, [1, 2, 3, 4]⟩ : FuzzySearchResultItem) =
          FuzzySearchResultItem.from_bytes it.address buf it.value_type) :=
  ⟨⟨fun _ => rfl, by decide, rfl⟩,
    C7_refine_exact
      (fun a s => if a = 4096 ∧ s = 4 then some [1, 2, 3, 4] else none)
      [⟨4096, .u32, [1, 2, 3, 4]⟩, ⟨8192, .u32, [0, 0, 0, 0]⟩]
      .unchanged (fun _ => false) (fun _ => rfl) (by decide)
      [⟨4096, .u32, [1, 2, 3, 4]⟩] rfl ⟨4096, .u32, [1, 2, 3, 4]⟩⟩

/-! ### Claim C8: cancellation asymmetry -/

theorem fuzzyInitialGo_cancel (vt : ValueType) (start stop chunk_size : Nat)
    (mem : Nat → Nat) (pageOk : Nat → Bool) (readFail : Nat → Bool)
    (page_size : Nat) (cancel : Nat → Bool)
    (hchunk : 0 < chunk_size) (k : Nat)
    (hk : (start - start % page_size) + k * chunk_size < stop)
    (hc0 : ∀ i, i < k → cancel i = false) (hck : cancel k = true) :
    ∀ n j acc fuel, k - j = n → j ≤ k →
      stop - ((start - start % page_size) + j * chunk_size) ≤ fuel →
      fuzzyInitialGo vt start stop chunk_size mem pageOk readFail page_size
        cancel fuel j ((start - start % page_size) + j * chunk_size) acc =
      ((List.range' j (k - j)).flatMap
          (fuzzyChunkItems vt start stop chunk_size mem pageOk readFail
            page_size)).foldl setInsertItem acc := by
  intro n
  induction n with
  | zero =>
    intro j acc fuel hn hj hfuel
    have hjk : j = k := by omega
    subst hjk
    match fuel with
    | 0 => omega
    | f + 1 =>
      have hcur : (start - start % page_size) + j * chunk_size < stop := hk
      simp only [fuzzyInitialGo, hck, if_pos, if_true, hn]
      rw [if_pos ⟨hchunk, hcur⟩]
      simp [hck]
  | succ n ih =>
    intro j acc fuel hn hj hfuel
    have hjk : j < k := by omega
    have hstep : (start - start % page_size) + j * chunk_size + chunk_size ≤
        (start - start % page_size) + k * chunk_size := by
      have : j + 1 ≤ k := hjk
      calc (start - start % page_size) + j * chunk_size + chunk_size
          = (start - start % page_size) + (j + 1) * chunk_size := by ring
        _ ≤ (start - start % page_size) + k * chunk_size := by
            have := Nat.mul_le_mul_right chunk_size this
            omega
    have hcur : (start - start % page_size) + j * chunk_size < stop := by omega
    match fuel with
    | 0 => omega
    | f + 1 =>
      simp only [fuzzyInitialGo]
      rw [if_pos ⟨hchunk, hcur⟩, if_neg (by rw [hc0 j hjk]; simp)]
      have hmin : min ((start - start % page_size) + j * chunk_size + chunk_size)
          stop = (start - start % page_size) + j * chunk_size + chunk_size := by
        omega
      have hrw : (List.range' j (k - j)) = j :: List.range' (j + 1) (k - (j + 1)) := by
        have h1 : k - j = (k - (j + 1)) + 1 := by omega
        rw [h1, List.range'_succ]
      rw [hrw]
      simp only [List.flatMap_cons, List.foldl_append]
      have harith : (start - start % page_size) + j * chunk_size + chunk_size =
          (start - start % page_size) + (j + 1) * chunk_size := by ring
      rw [hmin]
      rw [harith]
      rw [ih (j + 1) _ f (by omega) (by omega) (by omega)]
      congr 1
      simp only [fuzzyChunkItems, hmin]
      rw [← harith]

/-- C8: the two engines disagree on cancellation: a cancelled
`scan_all_pointers` call returns the `Scan cancelled` error (all partial
results discarded), whereas a cancelled `fuzzy_initial_scan` call returns
`Ok` with exactly the items accumulated over the chunks processed before
the cancellation check fired. -/
theorem C8_cancellation_asymmetry :
    (∀ (regions : List ScanRegion) (cfg : PointerScanConfig) (mem : Nat → Nat)
      (pageOk : Nat → Bool) (readFail : Nat → Bool) (page_size : Nat)
      (cancel : Nat → Bool),
      (∃ i, i < regions.length ∧ cancel i = true) →
      scan_all_pointers regions cfg mem pageOk readFail page_size cancel =
        .error "Scan cancelled") ∧
    (∀ (vt : ValueType) (start stop chunk_size : Nat) (mem : Nat → Nat)
      (pageOk : Nat → Bool) (readFail : Nat → Bool) (page_size : Nat)
      (cancel : Nat → Bool) (k : Nat),
      0 < chunk_size →
      (start - start % page_size) + k * chunk_size < stop →
      (∀ i, i < k → cancel i = false) → cancel k = true →
      fuzzy_initial_scan vt start stop chunk_size mem pageOk readFail page_size
          cancel =
        .ok (listToSet ((List.range k).flatMap
          (fuzzyChunkItems vt start stop chunk_size mem pageOk readFail
            page_size)))) := by
  constructor
  · intro regions cfg mem pageOk readFail page_size cancel ⟨i, hi, hci⟩
    simp only [scan_all_pointers]
    rw [if_pos (List.any_eq_true.mpr ⟨i, List.mem_range.mpr hi, hci⟩)]
  · intro vt start stop chunk_size mem pageOk readFail page_size cancel k
      hchunk hk hc0 hck
    simp only [fuzzy_initial_scan, Except.ok.injEq]
    have h := fuzzyInitialGo_cancel vt start stop chunk_size mem pageOk readFail
      page_size cancel hchunk k hk hc0 hck k 0 []
      (stop - (start - start % page_size)) (by omega) (by omega) (by omega)
    simp only [Nat.zero_mul, Nat.add_zero] at h
    rw [h]
    rw [Nat.sub_zero, ← List.range_eq_range']
    rfl

/-- C8 witness: a one-region scan cancelled at its first region returns the
error, and a fuzzy scan over two chunks cancelled at chunk 1 returns the
chunk-0 items. -/
theorem C8_cancellation_asymmetry_witness :
    ((∃ i, i < ([⟨0, 8, "r"⟩] : List ScanRegion).length ∧
        (fun _ : Nat => true) i = true) ∧
      scan_all_pointers [⟨0, 8, "r"⟩] ⟨0, 1, 0, 8, false⟩ (fun _ => 0)
        (fun _ => true) (fun _ => false) 8 (fun _ => true) =
        .error "Scan cancelled") ∧
    (((0 : Nat) < 8 ∧ (4096 - 4096 % 8) + 1 * 8 < 4112 ∧
        (∀ i, i < 1 → (fun j => decide (1 ≤ j)) i = false) ∧
        (fun j => decide (1 ≤ j)) 1 = true) ∧
      fuzzy_initial_scan .u32 4096 4112 8 (fun _ => 0) (fun _ => true)
          (fun _ => false) 8 (fun j => decide (1 ≤ j)) =
        .ok (listToSet ((List.range 1).flatMap
          (fuzzyChunkItems .u32 4096 4112 8 (fun _ => 0) (fun _ => true)
            (fun _ => false) 8)))) :=
  ⟨⟨⟨0, by decide, rfl⟩,
    C8_cancellation_asymmetry.1 [⟨0, 8, "r"⟩] ⟨0, 1, 0, 8, false⟩ (fun _ => 0)
      (fun _ => true) (fun _ => false) 8 (fun _ => true) ⟨0, by decide, rfl⟩⟩,
    ⟨⟨by decide, by decide, by decide, by decide⟩,
      C8_cancellation_asymmetry.2 .u32 4096 4112 8 (fun _ => 0) (fun _ => true)
        (fun _ => false) 8 (fun j => decide (1 ≤ j)) 1 (by decide) (by decide)
        (by decide) (by decide)⟩⟩

/-! ### Claim C6: sortedness of the merged queue -/

theorem mem_kmerge2Go (a : PointerData) :
    ∀ (fuel : Nat) (xs ys : List PointerData),
      a ∈ kmerge2Go fuel xs ys ↔ a ∈ xs ∨ a ∈ ys := by
  intro fuel
  induction fuel with
  | zero => intro xs ys; simp [kmerge2Go]
  | succ fuel ih =>
    intro xs ys
    match xs, ys with
    | [], ys => simp [kmerge2Go]
    | x :: xs, [] => simp [kmerge2Go]
    | x :: xs, y :: ys =>
      simp only [kmerge2Go]
      by_cases h : x.value < y.value
      · rw [if_pos h]
        simp only [List.mem_cons, ih]
        tauto
      · rw [if_neg h]
        simp only [List.mem_cons, ih]
        tauto

theorem pairwise_kmerge2Go :
    ∀ (fuel : Nat) (xs ys : List PointerData),
      xs.length + ys.length ≤ fuel →
      xs.Pairwise (fun a b => a.value ≤ b.value) →
      ys.Pairwise (fun a b => a.value ≤ b.value) →
      (kmerge2Go fuel xs ys).Pairwise (fun a b => a.value ≤ b.value) := by
  intro fuel
  induction fuel with
  | zero =>
    intro xs ys hlen _ _
    have hx : xs = [] := by
      cases xs with
      | nil => rfl
      | cons a l => simp at hlen
    have hy : ys = [] := by
      cases ys with
      | nil => rfl
      | cons a l => rw [hx] at hlen; simp at hlen
    subst hx; subst hy
    simp [kmerge2Go]
  | succ fuel ih =>
    intro xs ys hlen hxs hys
    match xs, ys with
    | [], ys => simpa [kmerge2Go] using hys
    | x :: xs, [] => simpa [kmerge2Go] using hxs
    | x :: xs, y :: ys =>
      simp only [kmerge2Go]
      rcases List.pairwise_cons.mp hxs with ⟨hx1, hxs'⟩
      rcases List.pairwise_cons.mp hys with ⟨hy1, hys'⟩
      simp only [List.length_cons] at hlen
      by_cases h : x.value < y.value
      · rw [if_pos h]
        refine List.pairwise_cons.mpr ⟨?_, ih xs (y :: ys) (by simp; omega) hxs' hys⟩
        intro b hb
        rcases (mem_kmerge2Go b fuel xs (y :: ys)).mp hb with hb1 | hb1
        · exact hx1 b hb1
        · rcases List.mem_cons.mp hb1 with hb2 | hb2
          · rw [hb2]; omega
          · exact le_trans (by omega) (hy1 b hb2)
      · rw [if_neg h]
        refine List.pairwise_cons.mpr ⟨?_, ih (x :: xs) ys (by simp; omega) hxs hys'⟩
        intro b hb
        rcases (mem_kmerge2Go b fuel (x :: xs) ys).mp hb with hb1 | hb1
        · rcases List.mem_cons.mp hb1 with hb2 | hb2
          · rw [hb2]; omega
          · exact le_trans (by omega) (hx1 b hb2)
        · exact hy1 b hb1

theorem pairwise_kmerge2 (xs ys : List PointerData)
    (hxs : xs.Pairwise (fun a b => a.value ≤ b.value))
    (hys : ys.Pairwise (fun a b => a.value ≤ b.value)) :
    (kmerge2 xs ys).Pairwise (fun a b => a.value ≤ b.value) :=
  pairwise_kmerge2Go (xs.length + ys.length) xs ys (le_refl _) hxs hys

theorem pairwise_merge_temp_files :
    ∀ files : List (List PointerData),
      (∀ l ∈ files, l.Pairwise (fun a b => a.value ≤ b.value)) →
      (merge_temp_files_kway files).Pairwise (fun a b => a.value ≤ b.value) := by
  intro files
  induction files with
  | nil => intro _; simp [merge_temp_files_kway]
  | cons f fs ih =>
    intro hall
    simp only [merge_temp_files_kway, List.foldr_cons]
    exact pairwise_kmerge2 f _ (hall f (List.mem_cons_self f fs))
      (ih fun l hl => hall l (List.mem_cons_of_mem f hl))

theorem pairwise_sort_and_write (l : List PointerData) :
    (sort_and_write_temp_file l).Pairwise (fun a b => a.value ≤ b.value) := by
  have h := pairwise_sortLe pdValueLe
    (by intro a b; simp only [pdValueLe, decide_eq_true_eq]; omega)
    (by intro a b c; simp only [pdValueLe, decide_eq_true_eq]; omega) l
  refine h.imp ?_
  intro a b hab
  simpa [pdValueLe] using hab

theorem scan_all_ok_eq (regions : List ScanRegion) (cfg : PointerScanConfig)
    (mem : Nat → Nat) (pageOk : Nat → Bool) (readFail : Nat → Bool)
    (page_size : Nat) (cancel : Nat → Bool) (out : List PointerData)
    (hout : scan_all_pointers regions cfg mem pageOk readFail page_size cancel =
      .ok out) :
    out = merge_temp_files_kway
      ((writerBatches (regions.map fun r =>
        scan_region_for_pointers r CHUNK_SIZE (buildValidRanges regions) cfg.align
          mem pageOk readFail page_size)).map sort_and_write_temp_file) := by
  by_cases hcan : (List.range regions.length).any cancel = true
  · rw [scan_all_pointers, if_pos hcan] at hout
    cases hout
  · rw [scan_all_pointers, if_neg hcan] at hout
    cases hout
    rfl

/-- C6: the queue returned by a successful `scan_all_pointers` is sorted by
value: for every pair of indices `i ≤ j < len`, the record at `i` has value
at most the value of the record at `j`. -/
theorem C6_output_sorted (regions : List ScanRegion) (cfg : PointerScanConfig)
    (mem : Nat → Nat) (pageOk : Nat → Bool) (readFail : Nat → Bool)
    (page_size : Nat) (cancel : Nat → Bool) (out : List PointerData)
    (hout : scan_all_pointers regions cfg mem pageOk readFail page_size cancel =
      .ok out) :
    ∀ i j (hi : i < out.length) (hj : j < out.length), i ≤ j →
      (out.get ⟨i, hi⟩).value ≤ (out.get ⟨j, hj⟩).value := by
  have heq := scan_all_ok_eq regions cfg mem pageOk readFail page_size cancel out
    hout
  have hsorted : out.Pairwise (fun a b => a.value ≤ b.value) := by
    rw [heq]
    refine pairwise_merge_temp_files _ ?_
    intro l hl
    rcases List.mem_map.mp hl with ⟨b, _, hb⟩
    rw [← hb]
    exact pairwise_sort_and_write b
  intro i j hi hj hij
  rcases Nat.eq_or_lt_of_le hij with heq2 | hlt
  · subst heq2; exact le_refl _
  · have := List.pairwise_iff_getElem.mp hsorted i j hi hj hlt
    simpa [List.get_eq_getElem] using this

/-- C6 witness: the sortedness statement instantiated on a concrete
successful one-region scan whose output is `[{0x1008, 0x1000}]`. -/
theorem C6_output_sorted_witness :
    (scan_all_pointers [⟨4096, 4112, "r"⟩] ⟨0, 1, 0, 8, false⟩
        (fun a => if a = 4104 then 0 else if a = 4105 then 16 else 0)
        (fun _ => true) (fun _ => false) 8 (fun _ => false) =
      .ok [⟨4104, 4096⟩]) ∧
    (([⟨4104, 4096⟩] : List PointerData).get ⟨0, by decide⟩).value ≤
      (([⟨4104, 4096⟩] : List PointerData).get ⟨0, by decide⟩).value :=
  ⟨rfl,
    C6_output_sorted [⟨4096, 4112, "r"⟩] ⟨0, 1, 0, 8, false⟩
      (fun a => if a = 4104 then 0 else if a = 4105 then 16 else 0)
      (fun _ => true) (fun _ => false) 8 (fun _ => false) [⟨4104, 4096⟩] rfl
      0 0 (by decide) (by decide) (le_refl 0)⟩

/-! ### Claim C5: scan postcondition -/

theorem mem_scan_chunk (buffer : List Nat) (base_addr align : Nat)
    (ranges : List (Nat × Nat)) (bm : PageStatusBitmap) (page_size : Nat)
    (halign : 0 < align) (r : PointerData)
    (hr : r ∈ scan_chunk_for_pointers buffer base_addr align ranges bm page_size) :
    is_valid_pointer r.value ranges = true ∧
    ∃ page_idx offset, r.address = base_addr + page_idx * page_size + offset ∧
      align ∣ offset ∧ page_idx * page_size + offset + 8 ≤ buffer.length := by
  by_cases hlen : buffer.length < 8
  · rw [scan_chunk_for_pointers, if_pos hlen] at hr
    simp at hr
  · rw [scan_chunk_for_pointers, if_neg hlen] at hr
    rcases List.mem_flatMap.mp hr with ⟨page_idx, _, hin⟩
    by_cases hok : ¬ bm.ok page_idx = true
    · rw [if_pos hok] at hin
      simp at hin
    · rw [if_neg hok] at hin
      by_cases hpp : min (page_idx * page_size + page_size) buffer.length ≤
          page_idx * page_size
      · rw [if_pos hpp] at hin
        simp at hin
      · rw [if_neg hpp] at hin
        by_cases hsl : ((buffer.drop (page_idx * page_size)).take
            (min (page_idx * page_size + page_size) buffer.length -
              page_idx * page_size)).length < 8
        · rw [if_pos hsl] at hin
          simp at hin
        · rw [if_neg hsl] at hin
          rcases List.mem_filterMap.mp hin with ⟨k, hk, hf⟩
          by_cases hv : is_valid_pointer
              (readLE64 ((buffer.drop (page_idx * page_size)).take
                (min (page_idx * page_size + page_size) buffer.length -
                  page_idx * page_size)) (k * align)) ranges = true
          · rw [if_pos hv] at hf
            have hreq : r = ⟨base_addr + page_idx * page_size + k * align,
                readLE64 ((buffer.drop (page_idx * page_size)).take
                  (min (page_idx * page_size + page_size) buffer.length -
                    page_idx * page_size)) (k * align)⟩ :=
              (Option.some.injEq _ _).mp hf.symm
            subst hreq
            refine ⟨hv, page_idx, k * align, rfl, dvd_mul_left align k, ?_⟩
            have hslen : ((buffer.drop (page_idx * page_size)).take
                (min (page_idx * page_size + page_size) buffer.length -
                  page_idx * page_size)).length =
                min (page_idx * page_size + page_size) buffer.length -
                  page_idx * page_size := by
              simp only [List.length_take, List.length_drop]
              omega
            rw [hslen] at hsl
            simp only [List.mem_range] at hk
            rw [hslen] at hk
            have hk2 : k ≤ (min (page_idx * page_size + page_size) buffer.length -
                page_idx * page_size - 8) / align := by omega
            have hka := (Nat.le_div_iff_mul_le halign).mp hk2
            omega
          · rw [if_neg hv] at hf
            cases hf

theorem scanRegionGo_at_stop (stop chunk_size : Nat) (ranges : List (Nat × Nat))
    (align : Nat) (mem : Nat → Nat) (pageOk : Nat → Bool) (readFail : Nat → Bool)
    (page_size : Nat) :
    ∀ fuel cur, stop ≤ cur →
      scanRegionGo stop chunk_size ranges align mem pageOk readFail page_size
        fuel cur = [] := by
  intro fuel cur h
  cases fuel with
  | zero => rfl
  | succ f =>
    rw [scanRegionGo, if_neg (fun hcl => absurd hcl.2 (by omega))]

theorem mem_scanRegionGo (stop chunk_size : Nat) (ranges : List (Nat × Nat))
    (align : Nat) (mem : Nat → Nat) (pageOk : Nat → Bool) (readFail : Nat → Bool)
    (page_size : Nat) (halign : 0 < align) (hap : align ∣ page_size)
    (hac : align ∣ chunk_size) :
    ∀ fuel cur r, align ∣ cur →
      r ∈ scanRegionGo stop chunk_size ranges align mem pageOk readFail
        page_size fuel cur →
      is_valid_pointer r.value ranges = true ∧ cur ≤ r.address ∧
      r.address < stop ∧ r.address % align = 0 := by
  intro fuel
  induction fuel with
  | zero => intro cur r _ hr; simp [scanRegionGo] at hr
  | succ fuel ih =>
    intro cur r hcur hr
    rw [scanRegionGo] at hr
    by_cases hg : 0 < chunk_size ∧ cur < stop
    · rw [if_pos hg] at hr
      rcases List.mem_append.mp hr with hfound | hrec
      · by_cases hrf : readFail cur = true
        · rw [if_pos hrf] at hfound
          simp at hfound
        · rw [if_neg hrf] at hfound
          have hm := mem_scan_chunk _ cur align ranges _ page_size halign r hfound
          rcases hm with ⟨hvalid, pidx, off, haddr, hoff, hbound⟩
          rw [List.length_map, List.length_range] at hbound
          have hdvd : align ∣ r.address := by
            rw [haddr]
            exact dvd_add (dvd_add hcur (Dvd.dvd.mul_left hap pidx)) hoff
          have hmod : r.address % align = 0 := by
            rcases hdvd with ⟨c, hc⟩
            rw [hc]
            exact Nat.mul_mod_right align c
          refine ⟨hvalid, ?_, ?_, hmod⟩
          · rw [haddr]
            omega
          · rw [haddr]
            have hgen : ∀ pp, pp + off + 8 ≤ min chunk_size (stop - cur) →
                cur + pp + off < stop := by
              intro pp hpp
              omega
            exact hgen (pidx * page_size) hbound
      · by_cases hcase : chunk_size ≤ stop - cur
        · have hrs : min chunk_size (stop - cur) = chunk_size := by omega
          rw [hrs] at hrec
          have := ih (cur + chunk_size) r (dvd_add hcur hac) hrec
          exact ⟨this.1, by omega, this.2.2⟩
        · have hrs : min chunk_size (stop - cur) = stop - cur := by omega
          rw [hrs] at hrec
          have hstop2 : cur + (stop - cur) = stop := by omega
          rw [hstop2, scanRegionGo_at_stop stop chunk_size ranges align mem pageOk
            readFail page_size fuel stop (le_refl _)] at hrec
          simp at hrec
    · rw [if_neg hg] at hr
      simp at hr

theorem is_valid_pointer_mem (value : Nat) (ranges : List (Nat × Nat))
    (hv : is_valid_pointer value ranges = true) :
    ∃ rg ∈ ranges, rg.1 ≤ value % 2 ^ 48 ∧ value % 2 ^ 48 < rg.2 := by
  unfold is_valid_pointer at hv
  by_cases he : ranges.isEmpty = true
  · rw [if_pos he] at hv
    cases hv
  · rw [if_neg he] at hv
    by_cases hq : value % 2 ^ 48 < ((ranges.head?).map Prod.fst).getD 0 ∨
        ((ranges.getLast?).map Prod.snd).getD 0 ≤ value % 2 ^ 48
    · rw [if_pos hq] at hv
      cases hv
    · rw [if_neg hq] at hv
      rcases List.any_eq_true.mp hv with ⟨rg, hrg, hdec⟩
      exact ⟨rg, hrg, by simpa using hdec⟩

theorem mergeRangesGo_cover (origs : List (Nat × Nat)) :
    ∀ (rest : List (Nat × Nat)) (current : Nat × Nat),
      (∀ x, current.1 ≤ x → x < current.2 → ∃ o ∈ origs, o.1 ≤ x ∧ x < o.2) →
      (∀ rg ∈ rest, rg ∈ origs) →
      ∀ rg ∈ mergeRangesGo current rest, ∀ x, rg.1 ≤ x → x < rg.2 →
        ∃ o ∈ origs, o.1 ≤ x ∧ x < o.2 := by
  intro rest
  induction rest with
  | nil =>
    intro current hcov _ rg hrg x h1 h2
    simp only [mergeRangesGo, List.mem_singleton] at hrg
    subst hrg
    exact hcov x h1 h2
  | cons next rest ih =>
    intro current hcov hmem rg hrg x h1 h2
    simp only [mergeRangesGo] at hrg
    by_cases hle : next.1 ≤ current.2
    · rw [if_pos hle] at hrg
      refine ih (current.1, max current.2 next.2) ?_
        (fun a ha => hmem a (List.mem_cons_of_mem next ha)) rg hrg x h1 h2
      intro y hy1 hy2
      simp only at hy1 hy2
      by_cases hyc : y < current.2
      · exact hcov y hy1 hyc
      · refine ⟨next, hmem next (List.mem_cons_self next rest), by omega, by omega⟩
    · rw [if_neg hle] at hrg
      rcases List.mem_cons.mp hrg with hcur | hrest
      · subst hcur
        exact hcov x h1 h2
      · refine ih next ?_ (fun a ha => hmem a (List.mem_cons_of_mem next ha))
          rg hrest x h1 h2
        intro y hy1 hy2
        exact ⟨next, hmem next (List.mem_cons_self next rest), hy1, hy2⟩

theorem buildValidRanges_cover (regions : List ScanRegion) (rg : Nat × Nat)
    (hrg : rg ∈ buildValidRanges regions) (x : Nat) (h1 : rg.1 ≤ x)
    (h2 : x < rg.2) :
    ∃ reg ∈ regions, reg.start ≤ x ∧ x < reg.stop := by
  unfold buildValidRanges at hrg
  rcases hmatch : sortLe (fun a b => decide (a.1 ≤ b.1))
      (regions.map fun r => (r.start, r.stop)) with _ | ⟨c, rest⟩
  · rw [hmatch] at hrg
    simp at hrg
  · rw [hmatch] at hrg
    have hmemorig : ∀ a ∈ (c :: rest),
        ∃ reg ∈ regions, a = (reg.start, reg.stop) := by
      intro a ha
      have h := (mem_sortLe (fun a b => decide (a.1 ≤ b.1)) a
        (regions.map fun r => (r.start, r.stop))).mp (hmatch ▸ ha)
      rcases List.mem_map.mp h with ⟨reg, hreg, heq⟩
      exact ⟨reg, hreg, heq.symm⟩
    have hcov := mergeRangesGo_cover (c :: rest) rest c
      (fun y hy1 hy2 => ⟨c, List.mem_cons_self c rest, hy1, hy2⟩)
      (fun a ha => List.mem_cons_of_mem c ha) rg hrg x h1 h2
    rcases hcov with ⟨o, ho, ho1, ho2⟩
    rcases hmemorig o ho with ⟨reg, hreg, hoeq⟩
    subst hoeq
    exact ⟨reg, hreg, ho1, ho2⟩

theorem mem_merge_temp_files (a : PointerData) :
    ∀ files : List (List PointerData),
      a ∈ merge_temp_files_kway files → ∃ l ∈ files, a ∈ l := by
  intro files
  induction files with
  | nil =>
    intro h
    simp [merge_temp_files_kway] at h
  | cons f fs ih =>
    intro h
    simp only [merge_temp_files_kway, List.foldr_cons, kmerge2] at h
    rcases (mem_kmerge2Go a _ f _).mp h with h1 | h1
    · exact ⟨f, List.mem_cons_self f fs, h1⟩
    · rcases ih h1 with ⟨l, hl, hal⟩
      exact ⟨l, List.mem_cons_of_mem f hl, hal⟩

theorem writerBatchesGo_join :
    ∀ (msgs : List (List PointerData)) (buffer : List PointerData),
      (writerBatchesGo buffer msgs).flatten = buffer ++ msgs.flatten := by
  intro msgs
  induction msgs with
  | nil =>
    intro buffer
    by_cases hb : buffer.isEmpty = true
    · have hbe : buffer = [] := by
        cases buffer with
        | nil => rfl
        | cons a l => simp at hb
      subst hbe
      simp [writerBatchesGo]
    · simp [writerBatchesGo, hb]
  | cons chunk rest ih =>
    intro buffer
    simp only [writerBatchesGo]
    by_cases hlen : BATCH_SIZE_THRESHOLD ≤ (buffer ++ chunk).length
    · rw [if_pos hlen]
      simp only [List.flatten_cons, ih []]
      simp
    · rw [if_neg hlen]
      rw [ih (buffer ++ chunk)]
      simp

/-- C5: after a successful `scan_all_pointers` (regions page-aligned, the
512 KiB chunk page-aligned, the alignment a power of two dividing the page
size), every record in the returned queue has a value whose lower 48 bits
lie in `[start, stop)` of some input region, an address inside some input
region, and an address divisible by `config.align`. -/
theorem C5_scan_postcondition (regions : List ScanRegion)
    (cfg : PointerScanConfig) (mem : Nat → Nat) (pageOk : Nat → Bool)
    (readFail : Nat → Bool) (page_size : Nat) (cancel : Nat → Bool)
    (out : List PointerData)
    (hpow : ∃ e, cfg.align = 2 ^ e) (hap : cfg.align ∣ page_size)
    (hchunk : page_size ∣ CHUNK_SIZE)
    (hreg : ∀ reg ∈ regions, page_size ∣ reg.start ∧ page_size ∣ reg.stop)
    (hout : scan_all_pointers regions cfg mem pageOk readFail page_size cancel =
      .ok out) :
    ∀ r ∈ out,
      (∃ reg ∈ regions, reg.start ≤ r.value % 2 ^ 48 ∧
        r.value % 2 ^ 48 < reg.stop) ∧
      (∃ reg ∈ regions, reg.start ≤ r.address ∧ r.address < reg.stop) ∧
      r.address % cfg.align = 0 := by
  have halign : 0 < cfg.align := by
    rcases hpow with ⟨e, he⟩
    rw [he]
    positivity
  have heq := scan_all_ok_eq regions cfg mem pageOk readFail page_size cancel
    out hout
  intro r hr
  rw [heq] at hr
  rcases mem_merge_temp_files r _ hr with ⟨l, hl, hrl⟩
  rcases List.mem_map.mp hl with ⟨b, hb, hbl⟩
  rw [← hbl] at hrl
  have hrb : r ∈ b := by
    have := (mem_sortLe pdValueLe r b).mp (by
      simpa only [sort_and_write_temp_file] using hrl)
    exact this
  have hrjoin : r ∈ (regions.map fun reg =>
      scan_region_for_pointers reg CHUNK_SIZE (buildValidRanges regions)
        cfg.align mem pageOk readFail page_size).flatten := by
    have hj := writerBatchesGo_join (regions.map fun reg =>
      scan_region_for_pointers reg CHUNK_SIZE (buildValidRanges regions)
        cfg.align mem pageOk readFail page_size) []
    simp only [List.nil_append] at hj
    rw [← hj]
    exact List.mem_flatten.mpr ⟨b, hb, hrb⟩
  rcases List.mem_flatten.mp hrjoin with ⟨m, hm, hrm⟩
  rcases List.mem_map.mp hm with ⟨reg, hregm, hmeq⟩
  rw [← hmeq] at hrm
  simp only [scan_region_for_pointers] at hrm
  have hregmem := mem_scanRegionGo reg.stop CHUNK_SIZE (buildValidRanges regions)
    cfg.align mem pageOk readFail page_size halign hap
    (dvd_trans hap hchunk) (reg.stop - reg.start) reg.start r
    (dvd_trans hap (hreg reg hregm).1) hrm
  refine ⟨?_, ⟨reg, hregm, hregmem.2.1, hregmem.2.2.1⟩, hregmem.2.2.2⟩
  rcases is_valid_pointer_mem r.value (buildValidRanges regions) hregmem.1 with
    ⟨rg, hrg, hrg1, hrg2⟩
  exact buildValidRanges_cover regions rg hrg (r.value % 2 ^ 48) hrg1 hrg2

/-- C5 witness: the postcondition instantiated on a concrete one-region scan
with page size 8 and alignment 8, whose single output record is
`{address 0x1008, value 0x1000}`. -/
theorem C5_scan_postcondition_witness :
    ((∃ e, PointerScanConfig.align ⟨0, 1, 0, 8, false⟩ = 2 ^ e) ∧
      (8 : Nat) ∣ 8 ∧ (8 : Nat) ∣ CHUNK_SIZE ∧
      (∀ reg ∈ ([⟨4096, 4112, "r"⟩] : List ScanRegion),
        (8 : Nat) ∣ reg.start ∧ (8 : Nat) ∣ reg.stop)) ∧
    ((∃ reg ∈ ([⟨4096, 4112, "r"⟩] : List ScanRegion),
        reg.start ≤ (4096 : Nat) % 2 ^ 48 ∧ (4096 : Nat) % 2 ^ 48 < reg.stop) ∧
      (∃ reg ∈ ([⟨4096, 4112, "r"⟩] : List ScanRegion),
        reg.start ≤ (4104 : Nat) ∧ (4104 : Nat) < reg.stop) ∧
      (4104 : Nat) % PointerScanConfig.align ⟨0, 1, 0, 8, false⟩ = 0) :=
  ⟨⟨⟨3, by decide⟩, by decide, by decide, by decide⟩,
    C5_scan_postcondition [⟨4096, 4112, "r"⟩] ⟨0, 1, 0, 8, false⟩
      (fun a => if a = 4104 then 0 else if a = 4105 then 16 else 0)
      (fun _ => true) (fun _ => false) 8 (fun _ => false) [⟨4104, 4096⟩]
      ⟨3, by decide⟩ (by decide) (by decide) (by decide) rfl
      ⟨4104, 4096⟩ (by decide)⟩

end MX
